import Mathlib

/-!
Verification development for the wallet crypter of paicoin
(`src/wallet/crypter.cpp`).

Bytes are modelled as `Nat`; byte buffers as `List Nat`.  The external
cryptographic primitives (SHA-512, SHA-256, the AES-256 block cipher and
the secp256k1 key operations), which live outside the provided sources,
are abstracted into a `WalletPrims` record; theorems assume only the
contracts that the real primitives satisfy (output lengths, block-cipher
invertibility, public-key derivation consistency).  Everything defined on
top of the primitives is translated directly from `crypter.cpp`.
-/

set_option maxRecDepth 10000

/-- Pointwise XOR of two byte buffers (truncates to the shorter one,
as `List.zipWith` does; all uses are on equal-length buffers). -/
def xorBytes (a b : List Nat) : List Nat := List.zipWith Nat.xor a b

/-- Fuel-indexed helper for `chunk16` (any fuel at least the length of
the list gives the intended behaviour; structural recursion keeps it
computable by the kernel). -/
def chunk16Aux : Nat → List Nat → List (List Nat)
  | 0, _ => []
  | fuel + 1, l => if l = [] then [] else l.take 16 :: chunk16Aux fuel (l.drop 16)

/-- Split a byte buffer into blocks of 16 bytes (the AES block size).
The final block is shorter when the length is not a multiple of 16;
all uses are on padded buffers whose length is a multiple of 16. -/
def chunk16 (l : List Nat) : List (List Nat) := chunk16Aux l.length l

/-- PKCS#7 padding: append `p` copies of the byte `p`,
where `p = 16 - (length mod 16)` (always between 1 and 16).
Modelled from the spec: the padding step of `AES256CBCEncrypt`
(`src/crypto/aes.cpp` is not part of the provided sources). -/
def pkcs7pad (x : List Nat) : List Nat :=
  x ++ List.replicate (16 - x.length % 16) (16 - x.length % 16)

/-- PKCS#7 unpadding: read the last byte `p`, require `1 ≤ p ≤ 16`,
`p ≤ length`, and that the last `p` bytes all equal `p`; strip them.
Modelled from the spec: the padding check of `AES256CBCDecrypt`, which
"returns 0 (treated as failure) on bad padding". -/
def pkcs7unpad (l : List Nat) : Option (List Nat) :=
  match l.getLast? with
  | none => none
  | some p =>
    if 1 ≤ p ∧ p ≤ 16 ∧ p ≤ l.length ∧ (l.drop (l.length - p)).all (fun b => b == p)
    then some (l.take (l.length - p))
    else none

/-- CBC mode, encryption direction, over an abstract block cipher `E`:
each plaintext block is XORed with the previous ciphertext block
(initially the IV) and then enciphered.
Modelled from the spec: `AES256CBCEncrypt` applies AES-256-CBC. -/
def cbcEncBlocks (E : List Nat → List Nat) : List Nat → List (List Nat) → List (List Nat)
  | _, [] => []
  | iv, p :: ps => E (xorBytes iv p) :: cbcEncBlocks E (E (xorBytes iv p)) ps

/-- CBC mode, decryption direction, over an abstract block decipher `D`. -/
def cbcDecBlocks (D : List Nat → List Nat) : List Nat → List (List Nat) → List (List Nat)
  | _, [] => []
  | iv, c :: cs => xorBytes iv (D c) :: cbcDecBlocks D c cs

/-- Whole-buffer AES-256-CBC encryption with PKCS#7 padding over an
abstract 16-byte block cipher `E`.
Modelled from the spec: `AES256CBCEncrypt::Encrypt`. -/
def aesCBCEncrypt (E : List Nat → List Nat) (iv x : List Nat) : List Nat :=
  (cbcEncBlocks E iv (chunk16 (pkcs7pad x))).flatten

/-- Whole-buffer AES-256-CBC decryption with PKCS#7 unpadding.
Modelled from the spec: `AES256CBCDecrypt::Decrypt`, which fails (returns
length 0) on an empty input, an input that is not a multiple of the block
size, or bad padding. -/
def aesCBCDecrypt (D : List Nat → List Nat) (iv ct : List Nat) : Option (List Nat) :=
  if ct.length = 0 ∨ ct.length % 16 ≠ 0 then none
  else pkcs7unpad ((cbcDecBlocks D iv (chunk16 ct)).flatten)

/-- The external cryptographic primitives consumed by `crypter.cpp`:
hash functions, the raw AES-256 block cipher (keyed, one 16-byte block),
and the secp256k1 public-key operations.  None of their implementations
is part of the provided sources; theorems state the contracts they rely
on as explicit hypotheses. -/
structure WalletPrims where
  sha512 : List Nat → List Nat
  sha256 : List Nat → List Nat
  aesEncBlock : List Nat → List Nat → List Nat
  aesDecBlock : List Nat → List Nat → List Nat
  derivePub : List Nat → Bool → List Nat
  pubGetHash : List Nat → List Nat
  pubGetID : List Nat → Nat
  pubIsCompressed : List Nat → Bool

/-- A secp256k1 private key: 32 bytes of key data plus the compression
flag (`CKey` from `key.h`; only the parts `crypter.cpp` touches). -/
structure CKey where
  data : List Nat
  fCompressed : Bool
deriving DecidableEq, Repr

/-- The state of a `CCrypter`: a 32-byte key buffer, a 16-byte IV buffer
and the `fKeySet` flag. -/
structure CCrypter where
  vchKey : List Nat
  vchIV : List Nat
  fKeySet : Bool
deriving DecidableEq, Repr

/-- A freshly constructed `CCrypter` (constructor in crypter.h): both
secure buffers are allocated at their fixed sizes (zero-initialized),
`fKeySet` is false. -/
def CCrypter.init : CCrypter :=
  { vchKey := List.replicate 32 0, vchIV := List.replicate 16 0, fKeySet := false }

/-- The inner digest-chaining loop of `BytesToKeySHA512AES`
(`for(int i = 0; i != count - 1; i++) di.Reset().Write(buf).Finalize(buf)`). -/
def btkChain (sha512 : List Nat → List Nat) : Nat → List Nat → List Nat
  | 0, buf => buf
  | n + 1, buf => btkChain sha512 n (sha512 buf)

/-- Model of `CCrypter::BytesToKeySHA512AES` (crypter.cpp:16):
hash `strKeyData || chSalt` with SHA-512, rehash `count - 1` more times,
return the first 32 bytes as the key and the next 16 as the IV.
Returns `none` when `count = 0` (the C++ returns 0 instead of
`WALLET_CRYPTO_KEY_SIZE`). -/
def BytesToKeySHA512AES (sha512 : List Nat → List Nat) (chSalt strKeyData : List Nat)
    (count : Nat) : Option (List Nat × List Nat) :=
  if count = 0 then none
  else
    let buf := btkChain sha512 (count - 1) (sha512 (strKeyData ++ chSalt))
    some (buf.take 32, (buf.drop 32).take 16)

/-- Model of `CCrypter::SetKeyFromPassphrase` (crypter.cpp:43).  Parameter errors
(`nRounds < 1`, salt length ≠ 8) return false immediately, leaving the
crypter untouched.  Otherwise the KDF runs only for derivation method 0;
if it did not produce a 32-byte key (i.e. for any other method) both
secure buffers are cleansed and false is returned.  `fKeySet` is set
only on success. -/
def CCrypter.SetKeyFromPassphrase (sha512 : List Nat → List Nat) (c : CCrypter)
    (strKeyData chSalt : List Nat) (nRounds nDerivationMethod : Nat) : Bool × CCrypter :=
  if nRounds < 1 ∨ chSalt.length ≠ 8 then (false, c)
  else
    match (if nDerivationMethod = 0
           then BytesToKeySHA512AES sha512 chSalt strKeyData nRounds
           else none) with
    | some kv => (true, { vchKey := kv.1, vchIV := kv.2, fKeySet := true })
    | none =>
      (false, { c with vchKey := List.replicate 32 0, vchIV := List.replicate 16 0 })

/-- Model of `CCrypter::SetKey` (crypter.cpp:63): requires a 32-byte key and a
16-byte IV; copies them into the secure buffers and sets `fKeySet`. -/
def CCrypter.SetKey (c : CCrypter) (chNewKey chNewIV : List Nat) : Bool × CCrypter :=
  if chNewKey.length ≠ 32 ∨ chNewIV.length ≠ 16 then (false, c)
  else (true, { vchKey := chNewKey, vchIV := chNewIV, fKeySet := true })

/-- Model of `CCrypter::Encrypt` (crypter.cpp:75): fails if no key is set; runs
AES-256-CBC and fails if the produced length is below the plaintext
length (never happens for the real cipher). -/
def CCrypter.Encrypt (prims : WalletPrims) (c : CCrypter)
    (vchPlaintext : List Nat) : Option (List Nat) :=
  if c.fKeySet = false then none
  else
    let ct := aesCBCEncrypt (prims.aesEncBlock c.vchKey) c.vchIV vchPlaintext
    if ct.length < vchPlaintext.length then none else some ct

/-- Model of `CCrypter::Decrypt` (crypter.cpp:93): fails if no key is set or if
the CBC decryption reports length 0 (bad input or bad padding). -/
def CCrypter.Decrypt (prims : WalletPrims) (c : CCrypter)
    (vchCiphertext : List Nat) : Option (List Nat) :=
  if c.fKeySet = false then none
  else aesCBCDecrypt (prims.aesDecBlock c.vchKey) c.vchIV vchCiphertext

/-- Association-list map keyed by `Nat`, kept sorted by key: the model of
`std::map` (`CryptedKeyMap`, `KeyMap`).  `mapInsert` is `operator[] = v`:
it replaces the value at an existing key and otherwise inserts at the
sorted position. -/
def mapInsert {α : Type} (k : Nat) (v : α) : List (Nat × α) → List (Nat × α)
  | [] => [(k, v)]
  | (k1, v1) :: rest =>
    if k < k1 then (k, v) :: (k1, v1) :: rest
    else if k = k1 then (k, v) :: rest
    else (k1, v1) :: mapInsert k v rest

/-- Model of `std::map::find` on the sorted association list. -/
def mapLookup {α : Type} (k : Nat) (l : List (Nat × α)) : Option α :=
  (l.find? (fun e => e.1 == k)).map (fun e => e.2)

/-- Model of `EncryptSecret` (crypter.cpp:111): build a fresh crypter, set its key
to the master key and its IV to the first 16 bytes of the 32-byte IV
seed, then encrypt. -/
def EncryptSecret (prims : WalletPrims) (vMasterKey vchPlaintext nIV : List Nat) :
    Option (List Nat) :=
  match CCrypter.SetKey CCrypter.init vMasterKey (nIV.take 16) with
  | (false, _) => none
  | (true, c) => CCrypter.Encrypt prims c vchPlaintext

/-- Model of `DecryptSecret` (crypter.cpp:121): the inverse envelope. -/
def DecryptSecret (prims : WalletPrims) (vMasterKey vchCiphertext nIV : List Nat) :
    Option (List Nat) :=
  match CCrypter.SetKey CCrypter.init vMasterKey (nIV.take 16) with
  | (false, _) => none
  | (true, c) => CCrypter.Decrypt prims c vchCiphertext

/-- Model of `DecryptKey` (crypter.cpp:131): decrypt the secret under the IV seed
`pub.GetHash()`, require a 32-byte scalar, rebuild the key with the
public key's compression flag and verify that it derives that public
key (`CKey::VerifyPubKey`, modelled from the spec: the derived public
key must equal `pub`). -/
def DecryptKey (prims : WalletPrims) (vMasterKey vchCryptedSecret vchPubKey : List Nat) :
    Option CKey :=
  match DecryptSecret prims vMasterKey vchCryptedSecret (prims.pubGetHash vchPubKey) with
  | none => none
  | some vchSecret =>
    if vchSecret.length ≠ 32 then none
    else
      let key : CKey := { data := vchSecret, fCompressed := prims.pubIsCompressed vchPubKey }
      if prims.derivePub key.data key.fCompressed = vchPubKey then some key else none

/-- Model of `CCryptoKeyStore::DoubleHashOfString` (crypter.cpp:535): double
SHA-256 of the label bytes; the all-zero word for the empty string. -/
def DoubleHashOfString (prims : WalletPrims) (str : List Nat) : List Nat :=
  if str.length = 0 then List.replicate 32 0
  else prims.sha256 (prims.sha256 str)

/-- The ASCII bytes of the label "paperkey". -/
def paperkeyLabel : List Nat := [112, 97, 112, 101, 114, 107, 101, 121]

/-- The ASCII bytes of the label "pincode". -/
def pincodeLabel : List Nat := [112, 105, 110, 99, 111, 100, 101]

/-- The state of a `CCryptoKeyStore`, with the `CBasicKeyStore` base
flattened in (its `mapKeys`, `paperKey` and `pinCode` members; the
plain store itself is not part of the provided sources and is modelled
from the spec as the plaintext mirror of the operations). -/
structure CCryptoKeyStore where
  mapKeys : List (Nat × CKey)
  mapCryptedKeys : List (Nat × (List Nat × List Nat))
  vMasterKey : List Nat
  fUseCrypto : Bool
  fDecryptionThoroughlyChecked : Bool
  vchCryptedPaperKey : List Nat
  paperKey : List Nat
  vchCryptedPinCode : List Nat
  pinCode : List Nat
deriving DecidableEq, Repr

/-- A newly constructed store: everything empty, both flags false. -/
def CCryptoKeyStore.initial : CCryptoKeyStore :=
  { mapKeys := [], mapCryptedKeys := [], vMasterKey := [],
    fUseCrypto := false, fDecryptionThoroughlyChecked := false,
    vchCryptedPaperKey := [], paperKey := [], vchCryptedPinCode := [], pinCode := [] }

/-- Model of `CCryptoKeyStore::IsLocked` (declared in crypter.h; modelled
from the spec: encrypted and no master key resident). -/
def CCryptoKeyStore.IsLocked (s : CCryptoKeyStore) : Bool :=
  s.fUseCrypto && s.vMasterKey.isEmpty

/-- Model of `CCryptoKeyStore::SetCrypted` (crypter.cpp:144): idempotent promotion
to the encrypted state; refuses while plaintext keys are present. -/
def SetCrypted (s : CCryptoKeyStore) : Bool × CCryptoKeyStore :=
  if s.fUseCrypto then (true, s)
  else if s.mapKeys ≠ [] then (false, s)
  else (true, { s with fUseCrypto := true })

/-- Model of `CCryptoKeyStore::Lock` (crypter.cpp:155): promote to encrypted,
then clear the master key. -/
def Lock (s : CCryptoKeyStore) : Bool × CCryptoKeyStore :=
  match SetCrypted s with
  | (false, s1) => (false, s1)
  | (true, s1) => (true, { s1 with vMasterKey := [] })

/-- The walk of `mapCryptedKeys` inside `CCryptoKeyStore::Unlock`
(crypter.cpp:178-192), accumulating `(keyPass, keyFail)`: stop at the
first failure; with `fDecryptionThoroughlyChecked` set, also stop at
the first success. -/
def unlockLoop (prims : WalletPrims) (vMasterKeyIn : List Nat) (thorough : Bool) :
    List (Nat × (List Nat × List Nat)) → Bool → Bool × Bool
  | [], keyPass => (keyPass, false)
  | e :: rest, keyPass =>
    match DecryptKey prims vMasterKeyIn e.2.2 e.2.1 with
    | none => (keyPass, true)
    | some _ =>
      if thorough then (true, false)
      else unlockLoop prims vMasterKeyIn thorough rest true

/-- Model of `CCryptoKeyStore::Unlock` (crypter.cpp:169).  The result is `none`
when the walk saw both a success and a failure (the `assert(false)`
aborts the process, so there is no successor state), and otherwise
`some (returnValue, newState)`. -/
def Unlock (prims : WalletPrims) (s : CCryptoKeyStore) (vMasterKeyIn : List Nat) :
    Option (Bool × CCryptoKeyStore) :=
  match SetCrypted s with
  | (false, s1) => some (false, s1)
  | (true, s1) =>
    let r := unlockLoop prims vMasterKeyIn s1.fDecryptionThoroughlyChecked s1.mapCryptedKeys false
    if r.1 && r.2 then none
    else if r.2 || !r.1 then some (false, s1)
    else some (true, { s1 with vMasterKey := vMasterKeyIn,
                               fDecryptionThoroughlyChecked := true })

/-- Modelled from the spec: `CBasicKeyStore::AddKeyPubKey` (the plain
store, not part of the provided sources) records the key in `mapKeys`
under `pubkey.GetID()`. -/
def basicAddKeyPubKey (prims : WalletPrims) (s : CCryptoKeyStore) (key : CKey)
    (pubkey : List Nat) : Bool × CCryptoKeyStore :=
  (true, { s with mapKeys := mapInsert (prims.pubGetID pubkey) key s.mapKeys })

/-- Modelled from the spec: `CBasicKeyStore::GetKey` looks the key up in
`mapKeys`. -/
def basicGetKey (s : CCryptoKeyStore) (address : Nat) : Option CKey :=
  mapLookup address s.mapKeys

/-- Modelled from the spec: `CBasicKeyStore::AddPaperKey` stores the
plaintext paper key. -/
def basicAddPaperKey (s : CCryptoKeyStore) (p : List Nat) : Bool × CCryptoKeyStore :=
  (true, { s with paperKey := p })

/-- Modelled from the spec: `CBasicKeyStore::GetPaperKey` returns the
cached plaintext paper key when one is present. -/
def basicGetPaperKey (s : CCryptoKeyStore) : Option (List Nat) :=
  if s.paperKey = [] then none else some s.paperKey

/-- Modelled from the spec: `CBasicKeyStore::AddPinCode`. -/
def basicAddPinCode (s : CCryptoKeyStore) (p : List Nat) : Bool × CCryptoKeyStore :=
  (true, { s with pinCode := p })

/-- Modelled from the spec: `CBasicKeyStore::GetPinCode`. -/
def basicGetPinCode (s : CCryptoKeyStore) : Option (List Nat) :=
  if s.pinCode = [] then none else some s.pinCode

/-- Model of `CCryptoKeyStore::AddCryptedKey` (crypter.cpp:365): promote to
encrypted and insert `(pub, ct)` into `mapCryptedKeys` under
`pub.GetID()`. -/
def AddCryptedKey (prims : WalletPrims) (s : CCryptoKeyStore)
    (vchPubKey vchCryptedSecret : List Nat) : Bool × CCryptoKeyStore :=
  match SetCrypted s with
  | (false, s1) => (false, s1)
  | (true, s1) =>
    (true, { s1 with
             mapCryptedKeys := mapInsert (prims.pubGetID vchPubKey)
               (vchPubKey, vchCryptedSecret) s1.mapCryptedKeys })

/-- Model of `CCryptoKeyStore::AddKeyPubKey` (crypter.cpp:343): delegate when not
encrypted, fail when locked, otherwise encrypt under the resident master
key with IV seed `pubkey.GetHash()` and store the ciphertext. -/
def AddKeyPubKey (prims : WalletPrims) (s : CCryptoKeyStore) (key : CKey)
    (pubkey : List Nat) : Bool × CCryptoKeyStore :=
  if s.fUseCrypto = false then basicAddKeyPubKey prims s key pubkey
  else if s.IsLocked then (false, s)
  else
    match EncryptSecret prims s.vMasterKey key.data (prims.pubGetHash pubkey) with
    | none => (false, s)
    | some vchCryptedSecret => AddCryptedKey prims s pubkey vchCryptedSecret

/-- Model of `CCryptoKeyStore::GetKey` (crypter.cpp:377): delegate when not
encrypted; otherwise look up the crypted record and decrypt it with the
resident master key. -/
def GetKey (prims : WalletPrims) (s : CCryptoKeyStore) (address : Nat) : Option CKey :=
  if s.fUseCrypto = false then basicGetKey s address
  else
    match mapLookup address s.mapCryptedKeys with
    | some e => DecryptKey prims s.vMasterKey e.2 e.1
    | none => none

/-- The loop of `CCryptoKeyStore::EncryptKeys` (crypter.cpp:421-431):
for each plaintext key, derive its public key, encrypt the secret under
the new master key with IV seed `pub.GetHash()`, and insert it through
`AddCryptedKey`; stop (returning false) at the first failure. -/
def encryptKeysLoop (prims : WalletPrims) (vMasterKeyIn : List Nat) :
    List (Nat × CKey) → CCryptoKeyStore → Bool × CCryptoKeyStore
  | [], s => (true, s)
  | (_, key) :: rest, s =>
    let vchPubKey := prims.derivePub key.data key.fCompressed
    match EncryptSecret prims vMasterKeyIn key.data (prims.pubGetHash vchPubKey) with
    | none => (false, s)
    | some vchCryptedSecret =>
      match AddCryptedKey prims s vchPubKey vchCryptedSecret with
      | (false, s1) => (false, s1)
      | (true, s1) => encryptKeysLoop prims vMasterKeyIn rest s1

/-- Model of `CCryptoKeyStore::EncryptKeys` (crypter.cpp:413): requires no crypted
keys yet and not yet encrypted; sets `fUseCrypto`, encrypts every
plaintext key, and clears `mapKeys` only after the whole loop succeeds. -/
def EncryptKeys (prims : WalletPrims) (s : CCryptoKeyStore) (vMasterKeyIn : List Nat) :
    Bool × CCryptoKeyStore :=
  if s.mapCryptedKeys ≠ [] ∨ s.fUseCrypto then (false, s)
  else
    match encryptKeysLoop prims vMasterKeyIn s.mapKeys { s with fUseCrypto := true } with
    | (false, s1) => (false, s1)
    | (true, s1) => (true, { s1 with mapKeys := [] })

/-- Model of `CCryptoKeyStore::AddCryptedPaperKey` (crypter.cpp:207). -/
def AddCryptedPaperKey (s : CCryptoKeyStore) (v : List Nat) : Bool × CCryptoKeyStore :=
  match SetCrypted s with
  | (false, s1) => (false, s1)
  | (true, s1) => (true, { s1 with vchCryptedPaperKey := v })

/-- Model of `CCryptoKeyStore::AddPaperKey` (crypter.cpp:219). -/
def AddPaperKey (prims : WalletPrims) (s : CCryptoKeyStore) (p : List Nat) :
    Bool × CCryptoKeyStore :=
  if s.fUseCrypto = false then basicAddPaperKey s p
  else if s.IsLocked then (false, s)
  else
    match EncryptSecret prims s.vMasterKey p (DoubleHashOfString prims paperkeyLabel) with
    | none => (false, s)
    | some vchOut => AddCryptedPaperKey s vchOut

/-- Model of `CCryptoKeyStore::GetPaperKey` (crypter.cpp:244): return the cached
plaintext copy when non-empty, delegate when not encrypted, otherwise
decrypt the stored envelope with the resident master key. -/
def GetPaperKey (prims : WalletPrims) (s : CCryptoKeyStore) : Option (List Nat) :=
  if s.paperKey ≠ [] then basicGetPaperKey s
  else if s.fUseCrypto = false then basicGetPaperKey s
  else DecryptSecret prims s.vMasterKey s.vchCryptedPaperKey
        (DoubleHashOfString prims paperkeyLabel)

/-- Model of `CCryptoKeyStore::DecryptPaperKey` (crypter.cpp:270): cache the
decrypted paper key into the plaintext member (out-parameter of
`GetPaperKey`; untouched on failure). -/
def DecryptPaperKey (prims : WalletPrims) (s : CCryptoKeyStore) : CCryptoKeyStore :=
  match GetPaperKey prims s with
  | some p => { s with paperKey := p }
  | none => s

/-- Model of `CCryptoKeyStore::EncryptPaperKey` (crypter.cpp:453). -/
def EncryptPaperKey (prims : WalletPrims) (s : CCryptoKeyStore) (vMasterKeyIn : List Nat) :
    Bool × CCryptoKeyStore :=
  if s.IsLocked then (false, s)
  else
    match GetPaperKey prims s with
    | none => (false, s)
    | some pk =>
      match EncryptSecret prims vMasterKeyIn pk (DoubleHashOfString prims paperkeyLabel) with
      | none => (false, s)
      | some vchOut => (true, { s with vchCryptedPaperKey := vchOut, paperKey := [] })

/-- Model of `CCryptoKeyStore::AddCryptedPinCode` (crypter.cpp:275). -/
def AddCryptedPinCode (s : CCryptoKeyStore) (v : List Nat) : Bool × CCryptoKeyStore :=
  match SetCrypted s with
  | (false, s1) => (false, s1)
  | (true, s1) => (true, { s1 with vchCryptedPinCode := v })

/-- Model of `CCryptoKeyStore::AddPinCode` (crypter.cpp:287). -/
def AddPinCode (prims : WalletPrims) (s : CCryptoKeyStore) (p : List Nat) :
    Bool × CCryptoKeyStore :=
  if s.fUseCrypto = false then basicAddPinCode s p
  else if s.IsLocked then (false, s)
  else
    match EncryptSecret prims s.vMasterKey p (DoubleHashOfString prims pincodeLabel) with
    | none => (false, s)
    | some vchOut => AddCryptedPinCode s vchOut

/-- Model of `CCryptoKeyStore::GetPinCode` (crypter.cpp:312). -/
def GetPinCode (prims : WalletPrims) (s : CCryptoKeyStore) : Option (List Nat) :=
  if s.pinCode ≠ [] then basicGetPinCode s
  else if s.fUseCrypto = false then basicGetPinCode s
  else DecryptSecret prims s.vMasterKey s.vchCryptedPinCode
        (DoubleHashOfString prims pincodeLabel)

/-- Model of `CCryptoKeyStore::DecryptPinCode` (crypter.cpp:338). -/
def DecryptPinCode (prims : WalletPrims) (s : CCryptoKeyStore) : CCryptoKeyStore :=
  match GetPinCode prims s with
  | some p => { s with pinCode := p }
  | none => s

/-- Model of `CCryptoKeyStore::EncryptPinCode` (crypter.cpp:502). -/
def EncryptPinCode (prims : WalletPrims) (s : CCryptoKeyStore) (vMasterKeyIn : List Nat) :
    Bool × CCryptoKeyStore :=
  if s.IsLocked then (false, s)
  else
    match GetPinCode prims s with
    | none => (false, s)
    | some pc =>
      match EncryptSecret prims vMasterKeyIn pc (DoubleHashOfString prims pincodeLabel) with
      | none => (false, s)
      | some vchOut => (true, { s with vchCryptedPinCode := vchOut, pinCode := [] })

/-- One mutating public operation of the store.  `Unlock` appears through
its `Option` result, so an aborting `Unlock` (the `assert(false)` case)
has no successor state; read-only operations do not change the state and
need no step. -/
inductive Step (prims : WalletPrims) : CCryptoKeyStore → CCryptoKeyStore → Prop where
  | lock (s : CCryptoKeyStore) : Step prims s (Lock s).2
  | unlock (s : CCryptoKeyStore) (m : List Nat) (b : Bool) (s1 : CCryptoKeyStore)
      (h : Unlock prims s m = some (b, s1)) : Step prims s s1
  | addKeyPubKey (s : CCryptoKeyStore) (key : CKey) (pubkey : List Nat) :
      Step prims s (AddKeyPubKey prims s key pubkey).2
  | addCryptedKey (s : CCryptoKeyStore) (pubkey ct : List Nat) :
      Step prims s (AddCryptedKey prims s pubkey ct).2
  | encryptKeys (s : CCryptoKeyStore) (m : List Nat) :
      Step prims s (EncryptKeys prims s m).2
  | addPaperKey (s : CCryptoKeyStore) (p : List Nat) :
      Step prims s (AddPaperKey prims s p).2
  | addCryptedPaperKey (s : CCryptoKeyStore) (v : List Nat) :
      Step prims s (AddCryptedPaperKey s v).2
  | decryptPaperKey (s : CCryptoKeyStore) : Step prims s (DecryptPaperKey prims s)
  | encryptPaperKey (s : CCryptoKeyStore) (m : List Nat) :
      Step prims s (EncryptPaperKey prims s m).2
  | addPinCode (s : CCryptoKeyStore) (p : List Nat) :
      Step prims s (AddPinCode prims s p).2
  | addCryptedPinCode (s : CCryptoKeyStore) (v : List Nat) :
      Step prims s (AddCryptedPinCode s v).2
  | decryptPinCode (s : CCryptoKeyStore) : Step prims s (DecryptPinCode prims s)
  | encryptPinCode (s : CCryptoKeyStore) (m : List Nat) :
      Step prims s (EncryptPinCode prims s m).2

/-- States reachable from a fresh store by public operations. -/
inductive Reach (prims : WalletPrims) : CCryptoKeyStore → Prop where
  | init : Reach prims CCryptoKeyStore.initial
  | step (s s1 : CCryptoKeyStore) (h : Reach prims s) (hs : Step prims s s1) :
      Reach prims s1

/-- States reachable when every `EncryptKeys` call receives a well-formed
32-byte master key (the only way the wallet layer ever calls it). -/
inductive ReachSafe (prims : WalletPrims) : CCryptoKeyStore → Prop where
  | init : ReachSafe prims CCryptoKeyStore.initial
  | lock (s : CCryptoKeyStore) (h : ReachSafe prims s) : ReachSafe prims (Lock s).2
  | unlock (s : CCryptoKeyStore) (m : List Nat) (b : Bool) (s1 : CCryptoKeyStore)
      (h : ReachSafe prims s) (hu : Unlock prims s m = some (b, s1)) :
      ReachSafe prims s1
  | addKeyPubKey (s : CCryptoKeyStore) (key : CKey) (pubkey : List Nat)
      (h : ReachSafe prims s) : ReachSafe prims (AddKeyPubKey prims s key pubkey).2
  | addCryptedKey (s : CCryptoKeyStore) (pubkey ct : List Nat)
      (h : ReachSafe prims s) : ReachSafe prims (AddCryptedKey prims s pubkey ct).2
  | encryptKeys (s : CCryptoKeyStore) (m : List Nat) (hm : m.length = 32)
      (h : ReachSafe prims s) : ReachSafe prims (EncryptKeys prims s m).2
  | addPaperKey (s : CCryptoKeyStore) (p : List Nat) (h : ReachSafe prims s) :
      ReachSafe prims (AddPaperKey prims s p).2
  | addCryptedPaperKey (s : CCryptoKeyStore) (v : List Nat) (h : ReachSafe prims s) :
      ReachSafe prims (AddCryptedPaperKey s v).2
  | decryptPaperKey (s : CCryptoKeyStore) (h : ReachSafe prims s) :
      ReachSafe prims (DecryptPaperKey prims s)
  | encryptPaperKey (s : CCryptoKeyStore) (m : List Nat) (h : ReachSafe prims s) :
      ReachSafe prims (EncryptPaperKey prims s m).2
  | addPinCode (s : CCryptoKeyStore) (p : List Nat) (h : ReachSafe prims s) :
      ReachSafe prims (AddPinCode prims s p).2
  | addCryptedPinCode (s : CCryptoKeyStore) (v : List Nat) (h : ReachSafe prims s) :
      ReachSafe prims (AddCryptedPinCode s v).2
  | decryptPinCode (s : CCryptoKeyStore) (h : ReachSafe prims s) :
      ReachSafe prims (DecryptPinCode prims s)
  | encryptPinCode (s : CCryptoKeyStore) (m : List Nat) (h : ReachSafe prims s) :
      ReachSafe prims (EncryptPinCode prims s m).2

/-- Injective encoding of a byte list into a single natural number
(binary: `[] ↦ 0`, `a :: l ↦ 2^a * (2 * encL l + 1)`); used to build
concrete instantiations of the abstract primitives. -/
def encL : List Nat → Nat
  | [] => 0
  | a :: l => 2 ^ a * (2 * encL l + 1)

/-- Fuel-indexed helper for `decL` (any fuel at least the value being
decoded gives the intended behaviour). -/
def decLAux : Nat → Nat → List Nat
  | 0, _ => []
  | fuel + 1, n =>
    if n = 0 then []
    else if n % 2 = 0 then
      match decLAux fuel (n / 2) with
      | [] => []
      | a :: l => (a + 1) :: l
    else 0 :: decLAux fuel (n / 2)

/-- The decoding inverse of `encL`. -/
def decL (n : Nat) : List Nat := decLAux n n

/-- A simple concrete instantiation of the primitives (identity block
cipher, constant hashes, injective public-key derivation), used to
evaluate the model on explicit inputs. -/
def idPrims : WalletPrims :=
  { sha512 := fun _ => List.replicate 64 0
    sha256 := fun _ => List.replicate 32 0
    aesEncBlock := fun _ b => b
    aesDecBlock := fun _ b => b
    derivePub := fun d c => d ++ [if c then 1 else 0]
    pubGetHash := fun _ => List.replicate 32 0
    pubGetID := fun p => encL p
    pubIsCompressed := fun p => p.getLastD 0 == 1 }

/-- Injective encoding of a byte list into a single natural number via
iterated `Nat.pair` (grows polynomially, so it stays computable even on
the large values produced by CBC chaining). -/
def encN : List Nat → Nat
  | [] => 0
  | a :: l => Nat.pair a (encN l) + 1

/-- Fuel-indexed helper for `decN`. -/
def decNAux : Nat → Nat → List Nat
  | 0, _ => []
  | fuel + 1, n =>
    if n = 0 then []
    else (Nat.unpair (n - 1)).1 :: decNAux fuel (Nat.unpair (n - 1)).2

/-- The decoding inverse of `encN`. -/
def decN (n : Nat) : List Nat := decNAux n n

/-- A concrete instantiation of the primitives whose block cipher tags
every ciphertext block with the whole key, so that decryption under any
other key yields a block of bytes 17 and PKCS#7 unpadding fails: an
ideal cipher for which a wrong master key is always rejected. -/
def toyPrims : WalletPrims :=
  { sha512 := fun _ => List.replicate 64 0
    sha256 := fun _ => List.replicate 32 0
    aesEncBlock := fun k b => Nat.pair (encL k) (encN b) :: List.replicate 15 0
    aesDecBlock := fun k b =>
      if (Nat.unpair (b.headD 0)).1 = encL k then decN (Nat.unpair (b.headD 0)).2
      else List.replicate 16 17
    derivePub := fun d c => d ++ [if c then 1 else 0]
    pubGetHash := fun _ => List.replicate 32 0
    pubGetID := fun p => encL p
    pubIsCompressed := fun p => p.getLastD 0 == 1 }

theorem length_xorBytes (a b : List Nat) :
    (xorBytes a b).length = min a.length b.length :=
  List.length_zipWith _ a b

theorem xorBytes_xorBytes (a : List Nat) :
    ∀ b : List Nat, a.length = b.length → xorBytes a (xorBytes a b) = b := by
  induction a with
  | nil => intro b hb; cases b <;> simp_all [xorBytes]
  | cons x xs ih =>
    intro b hb
    cases b with
    | nil => simp at hb
    | cons y ys =>
      simp only [xorBytes, List.zipWith_cons_cons] at *
      simp only [List.length_cons] at hb
      have h1 : x ^^^ (x ^^^ y) = y := by
        rw [← Nat.xor_assoc, Nat.xor_self, Nat.zero_xor]
      rw [show x.xor (x.xor y) = x ^^^ (x ^^^ y) from rfl, h1, ih ys (by omega)]

theorem pkcs7pad_length (x : List Nat) :
    (pkcs7pad x).length = x.length + (16 - x.length % 16) := by
  simp [pkcs7pad]

theorem pkcs7pad_length_mod (x : List Nat) : (pkcs7pad x).length % 16 = 0 := by
  rw [pkcs7pad_length]; omega

theorem pkcs7pad_length_eq (x : List Nat) :
    (pkcs7pad x).length = 16 * ((x.length + 1 + 15) / 16) := by
  rw [pkcs7pad_length]; omega

theorem length_lt_pkcs7pad_length (x : List Nat) : x.length < (pkcs7pad x).length := by
  rw [pkcs7pad_length]; omega

theorem pkcs7unpad_pkcs7pad (x : List Nat) : pkcs7unpad (pkcs7pad x) = some x := by
  have hp1 : 1 ≤ 16 - x.length % 16 := by omega
  have hrep : List.replicate (16 - x.length % 16) (16 - x.length % 16) ≠ [] := by
    simp only [ne_eq, List.replicate_eq_nil]
    omega
  obtain ⟨q, hq⟩ : ∃ q, 16 - x.length % 16 = q + 1 := ⟨15 - x.length % 16, by omega⟩
  have hlast : (pkcs7pad x).getLast? = some (16 - x.length % 16) := by
    rw [pkcs7pad, List.getLast?_append_of_ne_nil _ hrep, hq, List.replicate_succ',
        List.getLast?_concat]
  have hlen : (pkcs7pad x).length = x.length + (16 - x.length % 16) := pkcs7pad_length x
  rw [pkcs7unpad, hlast]
  have hsub : (pkcs7pad x).length - (16 - x.length % 16) = x.length := by omega
  have hdrop : (pkcs7pad x).drop x.length
      = List.replicate (16 - x.length % 16) (16 - x.length % 16) := by
    rw [pkcs7pad]
    exact List.drop_left x _
  have htake : (pkcs7pad x).take x.length = x := by
    rw [pkcs7pad]
    exact List.take_left x _
  simp only [hsub, hdrop, htake]
  rw [if_pos]
  refine ⟨hp1, by omega, by omega, ?_⟩
  rw [List.all_eq_true]
  intro b hb
  rw [List.mem_replicate] at hb
  simp [hb.2]

theorem chunk16Aux_nil (n : Nat) : chunk16Aux n [] = [] := by
  cases n <;> simp [chunk16Aux]

theorem chunk16Aux_fuel :
    ∀ (n m : Nat) (l : List Nat), l.length ≤ n → l.length ≤ m →
      chunk16Aux n l = chunk16Aux m l := by
  intro n
  induction n with
  | zero =>
    intro m l h1 _
    have : l = [] := List.length_eq_zero.mp (by omega)
    subst this
    rw [chunk16Aux_nil, chunk16Aux_nil]
  | succ n ih =>
    intro m l h1 h2
    by_cases hl : l = []
    · subst hl
      rw [chunk16Aux_nil, chunk16Aux_nil]
    · have hpos : 0 < l.length := List.length_pos.mpr hl
      obtain ⟨m1, rfl⟩ : ∃ m1, m = m1 + 1 := ⟨m - 1, by omega⟩
      simp only [chunk16Aux, if_neg hl]
      congr 1
      exact ih m1 (l.drop 16) (by simp [List.length_drop]; omega)
        (by simp [List.length_drop]; omega)

theorem chunk16_nil : chunk16 [] = [] := rfl

theorem chunk16_cons (l : List Nat) (h : l ≠ []) :
    chunk16 l = l.take 16 :: chunk16 (l.drop 16) := by
  have hpos : 0 < l.length := List.length_pos.mpr h
  obtain ⟨n1, hn1⟩ : ∃ n1, l.length = n1 + 1 := ⟨l.length - 1, by omega⟩
  rw [chunk16, hn1]
  simp only [chunk16Aux, if_neg h]
  congr 1
  rw [chunk16]
  exact chunk16Aux_fuel n1 (l.drop 16).length (l.drop 16)
    (by simp [List.length_drop]; omega) le_rfl

theorem chunk16_flatten_aux :
    ∀ (n : Nat) (l : List Nat), l.length ≤ n → (chunk16 l).flatten = l := by
  intro n
  induction n with
  | zero =>
    intro l hl
    have : l = [] := List.length_eq_zero.mp (by omega)
    subst this
    simp [chunk16_nil]
  | succ n ih =>
    intro l hl
    by_cases h : l = []
    · subst h; simp [chunk16_nil]
    · rw [chunk16_cons l h, List.flatten_cons]
      have hpos : 0 < l.length := List.length_pos.mpr h
      rw [ih (l.drop 16) (by simp [List.length_drop]; omega)]
      exact List.take_append_drop 16 l

theorem chunk16_flatten (l : List Nat) : (chunk16 l).flatten = l :=
  chunk16_flatten_aux l.length l le_rfl

theorem chunk16_blocks_aux :
    ∀ (n : Nat) (l : List Nat), l.length ≤ n → l.length % 16 = 0 →
      ∀ b ∈ chunk16 l, b.length = 16 := by
  intro n
  induction n with
  | zero =>
    intro l hl _ b hb
    have : l = [] := List.length_eq_zero.mp (by omega)
    subst this
    simp [chunk16_nil] at hb
  | succ n ih =>
    intro l hl hmod b hb
    by_cases h : l = []
    · subst h; simp [chunk16_nil] at hb
    · rw [chunk16_cons l h] at hb
      have hpos : 0 < l.length := List.length_pos.mpr h
      have h16 : 16 ≤ l.length := by omega
      rcases List.mem_cons.mp hb with hb1 | hb2
      · subst hb1; simp [List.length_take]; omega
      · exact ih (l.drop 16) (by simp [List.length_drop]; omega)
          (by simp [List.length_drop]; omega) b hb2

theorem chunk16_blocks (l : List Nat) (hmod : l.length % 16 = 0) :
    ∀ b ∈ chunk16 l, b.length = 16 :=
  chunk16_blocks_aux l.length l le_rfl hmod

theorem chunk16_flatten_blocks (bs : List (List Nat)) (h : ∀ b ∈ bs, b.length = 16) :
    chunk16 bs.flatten = bs := by
  induction bs with
  | nil => simp [chunk16_nil]
  | cons b rest ih =>
    rw [List.flatten_cons]
    have hb : b.length = 16 := h b (List.mem_cons_self b rest)
    have hbne : b ≠ [] := by
      intro hh; rw [hh] at hb; simp at hb
    have hne : b ++ rest.flatten ≠ [] := by
      intro hh
      exact hbne (List.append_eq_nil.mp hh).1
    rw [chunk16_cons _ hne]
    have htake : (b ++ rest.flatten).take 16 = b := by
      conv_lhs => rw [← hb]
      exact List.take_left b _
    have hdrop : (b ++ rest.flatten).drop 16 = rest.flatten := by
      conv_lhs => rw [← hb]
      exact List.drop_left b _
    rw [htake, hdrop, ih (fun x hx => h x (List.mem_cons_of_mem b hx))]

theorem length_cbcEncBlocks (E : List Nat → List Nat) :
    ∀ (bs : List (List Nat)) (iv : List Nat),
      (cbcEncBlocks E iv bs).length = bs.length := by
  intro bs
  induction bs with
  | nil => intro iv; simp [cbcEncBlocks]
  | cons p ps ih => intro iv; simp [cbcEncBlocks, ih]

theorem cbcEncBlocks_blocks (E : List Nat → List Nat)
    (hE : ∀ b, b.length = 16 → (E b).length = 16) :
    ∀ (bs : List (List Nat)) (iv : List Nat), iv.length = 16 →
      (∀ b ∈ bs, b.length = 16) → ∀ c ∈ cbcEncBlocks E iv bs, c.length = 16 := by
  intro bs
  induction bs with
  | nil => intro iv _ _ c hc; simp [cbcEncBlocks] at hc
  | cons p ps ih =>
    intro iv hiv hbs c hc
    have hp : p.length = 16 := hbs p (List.mem_cons_self p ps)
    have hxor : (xorBytes iv p).length = 16 := by
      rw [length_xorBytes, hiv, hp]; omega
    have hc16 : (E (xorBytes iv p)).length = 16 := hE _ hxor
    simp only [cbcEncBlocks, List.mem_cons] at hc
    rcases hc with hc1 | hc2
    · rw [hc1]; exact hc16
    · exact ih (E (xorBytes iv p)) hc16
        (fun b hb => hbs b (List.mem_cons_of_mem p hb)) c hc2

theorem cbcDecBlocks_cbcEncBlocks (E D : List Nat → List Nat)
    (hE : ∀ b, b.length = 16 → (E b).length = 16)
    (hD : ∀ b, b.length = 16 → D (E b) = b) :
    ∀ (bs : List (List Nat)) (iv : List Nat), iv.length = 16 →
      (∀ b ∈ bs, b.length = 16) →
      cbcDecBlocks D iv (cbcEncBlocks E iv bs) = bs := by
  intro bs
  induction bs with
  | nil => intro iv _ _; simp [cbcEncBlocks, cbcDecBlocks]
  | cons p ps ih =>
    intro iv hiv hbs
    have hp : p.length = 16 := hbs p (List.mem_cons_self p ps)
    have hxor : (xorBytes iv p).length = 16 := by
      rw [length_xorBytes, hiv, hp]; omega
    simp only [cbcEncBlocks, cbcDecBlocks]
    rw [hD _ hxor, xorBytes_xorBytes iv p (by omega),
        ih (E (xorBytes iv p)) (hE _ hxor)
          (fun b hb => hbs b (List.mem_cons_of_mem p hb))]

theorem flatten_length_of_blocks (bs : List (List Nat))
    (h : ∀ b ∈ bs, b.length = 16) : bs.flatten.length = 16 * bs.length := by
  induction bs with
  | nil => simp
  | cons b rest ih =>
    rw [List.flatten_cons, List.length_append, h b (List.mem_cons_self b rest),
        ih (fun x hx => h x (List.mem_cons_of_mem b hx))]
    simp [List.length_cons]
    omega

theorem aesCBCEncrypt_length (E : List Nat → List Nat) (iv x : List Nat)
    (hE : ∀ b, b.length = 16 → (E b).length = 16) (hiv : iv.length = 16) :
    (aesCBCEncrypt E iv x).length = (pkcs7pad x).length := by
  have hblocks := chunk16_blocks (pkcs7pad x) (pkcs7pad_length_mod x)
  have h1 : (aesCBCEncrypt E iv x).length = 16 * (chunk16 (pkcs7pad x)).length := by
    rw [aesCBCEncrypt,
        flatten_length_of_blocks _ (cbcEncBlocks_blocks E hE _ iv hiv hblocks),
        length_cbcEncBlocks]
  have h2 : (pkcs7pad x).length = 16 * (chunk16 (pkcs7pad x)).length := by
    conv_lhs => rw [← chunk16_flatten (pkcs7pad x)]
    exact flatten_length_of_blocks _ hblocks
  omega

theorem aesCBCDecrypt_aesCBCEncrypt (E D : List Nat → List Nat) (iv x : List Nat)
    (hE : ∀ b, b.length = 16 → (E b).length = 16)
    (hD : ∀ b, b.length = 16 → D (E b) = b) (hiv : iv.length = 16) :
    aesCBCDecrypt D iv (aesCBCEncrypt E iv x) = some x := by
  have hblocks := chunk16_blocks (pkcs7pad x) (pkcs7pad_length_mod x)
  have hct : (aesCBCEncrypt E iv x).length = (pkcs7pad x).length :=
    aesCBCEncrypt_length E iv x hE hiv
  have hctpos : (aesCBCEncrypt E iv x).length ≠ 0 := by
    have := length_lt_pkcs7pad_length x
    omega
  have hctmod : (aesCBCEncrypt E iv x).length % 16 = 0 := by
    rw [hct]; exact pkcs7pad_length_mod x
  rw [aesCBCDecrypt, if_neg (by omega)]
  have hencblocks := cbcEncBlocks_blocks E hE _ iv hiv hblocks
  rw [aesCBCEncrypt, chunk16_flatten_blocks _ hencblocks,
      cbcDecBlocks_cbcEncBlocks E D hE hD _ iv hiv hblocks, chunk16_flatten]
  exact pkcs7unpad_pkcs7pad x

theorem SetKey_success (c : CCrypter) (k iv : List Nat)
    (hk : k.length = 32) (hiv : iv.length = 16) :
    CCrypter.SetKey c k iv = (true, { vchKey := k, vchIV := iv, fKeySet := true }) := by
  rw [CCrypter.SetKey, if_neg]
  simp [hk, hiv]

theorem SetKey_fail (c : CCrypter) (k iv : List Nat)
    (h : k.length ≠ 32 ∨ iv.length ≠ 16) :
    CCrypter.SetKey c k iv = (false, c) := by
  rw [CCrypter.SetKey, if_pos h]

theorem Encrypt_eq (prims : WalletPrims) (c : CCrypter) (x : List Nat)
    (hE : ∀ b, b.length = 16 → (prims.aesEncBlock c.vchKey b).length = 16)
    (hiv : c.vchIV.length = 16) (hset : c.fKeySet = true) :
    CCrypter.Encrypt prims c x
      = some (aesCBCEncrypt (prims.aesEncBlock c.vchKey) c.vchIV x) := by
  rw [CCrypter.Encrypt, if_neg (by simp [hset])]
  have hl : (aesCBCEncrypt (prims.aesEncBlock c.vchKey) c.vchIV x).length
      = (pkcs7pad x).length := aesCBCEncrypt_length _ _ _ hE hiv
  have := length_lt_pkcs7pad_length x
  simp only [if_neg (by omega : ¬ (aesCBCEncrypt (prims.aesEncBlock c.vchKey) c.vchIV x).length < x.length)]

theorem Decrypt_Encrypt (prims : WalletPrims) (c : CCrypter) (x ct : List Nat)
    (hE : ∀ b, b.length = 16 → (prims.aesEncBlock c.vchKey b).length = 16)
    (hD : ∀ b, b.length = 16 →
      prims.aesDecBlock c.vchKey (prims.aesEncBlock c.vchKey b) = b)
    (hiv : c.vchIV.length = 16) (hset : c.fKeySet = true)
    (henc : CCrypter.Encrypt prims c x = some ct) :
    CCrypter.Decrypt prims c ct = some x := by
  rw [Encrypt_eq prims c x hE hiv hset] at henc
  cases henc
  rw [CCrypter.Decrypt, if_neg (by simp [hset])]
  exact aesCBCDecrypt_aesCBCEncrypt _ _ _ _ hE hD hiv

theorem EncryptSecret_eq (prims : WalletPrims) (mk x seed : List Nat)
    (hE : ∀ k b, k.length = 32 → b.length = 16 → (prims.aesEncBlock k b).length = 16)
    (hmk : mk.length = 32) (hseed : 16 ≤ seed.length) :
    EncryptSecret prims mk x seed
      = some (aesCBCEncrypt (prims.aesEncBlock mk) (seed.take 16) x) := by
  have hivlen : (seed.take 16).length = 16 := by
    rw [List.length_take]; omega
  rw [EncryptSecret, SetKey_success CCrypter.init mk (seed.take 16) hmk hivlen]
  exact Encrypt_eq prims _ x (fun b hb => hE mk b hmk hb) hivlen rfl

theorem DecryptSecret_EncryptSecret (prims : WalletPrims) (mk x seed ct : List Nat)
    (hE : ∀ k b, k.length = 32 → b.length = 16 → (prims.aesEncBlock k b).length = 16)
    (hD : ∀ k b, k.length = 32 → b.length = 16 →
      prims.aesDecBlock k (prims.aesEncBlock k b) = b)
    (hmk : mk.length = 32) (hseed : 16 ≤ seed.length)
    (henc : EncryptSecret prims mk x seed = some ct) :
    DecryptSecret prims mk ct seed = some x := by
  have hivlen : (seed.take 16).length = 16 := by
    rw [List.length_take]; omega
  rw [EncryptSecret, SetKey_success CCrypter.init mk (seed.take 16) hmk hivlen] at henc
  rw [DecryptSecret, SetKey_success CCrypter.init mk (seed.take 16) hmk hivlen]
  exact Decrypt_Encrypt prims _ x ct (fun b hb => hE mk b hmk hb)
    (fun b hb => hD mk b hmk hb) hivlen rfl henc

theorem DecryptSecret_badkey (prims : WalletPrims) (mk ct seed : List Nat)
    (h : mk.length ≠ 32) : DecryptSecret prims mk ct seed = none := by
  rw [DecryptSecret, SetKey_fail CCrypter.init mk (seed.take 16) (Or.inl h)]

theorem DecryptKey_badkey (prims : WalletPrims) (mk ct pub : List Nat)
    (h : mk.length ≠ 32) : DecryptKey prims mk ct pub = none := by
  rw [DecryptKey, DecryptSecret_badkey prims mk ct _ h]

theorem DecryptKey_good (prims : WalletPrims) (mk : List Nat) (key : CKey) (ct : List Nat)
    (hE : ∀ k b, k.length = 32 → b.length = 16 → (prims.aesEncBlock k b).length = 16)
    (hD : ∀ k b, k.length = 32 → b.length = 16 →
      prims.aesDecBlock k (prims.aesEncBlock k b) = b)
    (hComp : ∀ d c, prims.pubIsCompressed (prims.derivePub d c) = c)
    (hH : ∀ p, 16 ≤ (prims.pubGetHash p).length)
    (hmk : mk.length = 32) (hkey : key.data.length = 32)
    (henc : EncryptSecret prims mk key.data
        (prims.pubGetHash (prims.derivePub key.data key.fCompressed)) = some ct) :
    DecryptKey prims mk ct (prims.derivePub key.data key.fCompressed) = some key := by
  rw [DecryptKey,
      DecryptSecret_EncryptSecret prims mk key.data _ ct hE hD hmk (hH _) henc]
  simp [hkey, hComp key.data key.fCompressed]

/-- A simple concrete hash function used to instantiate the abstract
SHA-512 in witnesses. -/
def wSha : List Nat → List Nat := fun l => 7 :: l

theorem btkChain_eq_iterate (f : List Nat → List Nat) :
    ∀ (n : Nat) (buf : List Nat), btkChain f n buf = f^[n] buf := by
  intro n
  induction n with
  | zero => intro buf; rfl
  | succ n ih =>
    intro buf
    rw [btkChain, ih (f buf), ← Function.iterate_succ_apply]

/-- C3: `BytesToKeySHA512AES` computes `buf := SHA512(passphrase || salt)`,
applies `buf := SHA512(buf)` exactly `count - 1` more times, and returns
the first 32 bytes of `buf` as the key and the next 16 bytes as the IV;
a call with `count = 0` fails. -/
theorem claim_C3 (sha512 : List Nat → List Nat) (passphrase salt : List Nat)
    (count : Nat) :
    (1 ≤ count →
      BytesToKeySHA512AES sha512 salt passphrase count
        = some ((sha512^[count - 1] (sha512 (passphrase ++ salt))).take 32,
                ((sha512^[count - 1] (sha512 (passphrase ++ salt))).drop 32).take 16))
  ∧ (count = 0 → BytesToKeySHA512AES sha512 salt passphrase count = none) := by
  constructor
  · intro hc
    rw [BytesToKeySHA512AES, if_neg (by omega)]
    rw [btkChain_eq_iterate]
  · intro hc
    rw [BytesToKeySHA512AES, if_pos hc]

theorem claim_C3_witness :
    1 ≤ 2 ∧ BytesToKeySHA512AES wSha [1, 2, 3, 4, 5, 6, 7, 8] [9, 10] 2
      = some ((wSha^[2 - 1] (wSha ([9, 10] ++ [1, 2, 3, 4, 5, 6, 7, 8]))).take 32,
              ((wSha^[2 - 1] (wSha ([9, 10] ++ [1, 2, 3, 4, 5, 6, 7, 8]))).drop 32).take 16) :=
  ⟨by decide, (claim_C3 wSha [9, 10] [1, 2, 3, 4, 5, 6, 7, 8] 2).1 (by decide)⟩

/-- C4: for every plaintext `X`, 32-byte key `K` and 16-byte IV `V`
(loaded into a crypter through `SetKey`), decrypting the encryption of
`X` returns `X`, and the ciphertext length is exactly
`16 * ⌈(|X| + 1) / 16⌉`, which is strictly greater than `|X|`.
Stated over any block cipher satisfying the AES contract. -/
theorem claim_C4 (prims : WalletPrims) (K V X : List Nat) (c : CCrypter)
    (hE : ∀ k b, k.length = 32 → b.length = 16 → (prims.aesEncBlock k b).length = 16)
    (hD : ∀ k b, k.length = 32 → b.length = 16 →
      prims.aesDecBlock k (prims.aesEncBlock k b) = b)
    (hK : K.length = 32) (hV : V.length = 16)
    (hset : CCrypter.SetKey CCrypter.init K V = (true, c)) :
    ∃ ct, CCrypter.Encrypt prims c X = some ct
      ∧ ct.length = 16 * ((X.length + 1 + 15) / 16)
      ∧ X.length < ct.length
      ∧ CCrypter.Decrypt prims c ct = some X := by
  rw [SetKey_success CCrypter.init K V hK hV] at hset
  have hc : c = { vchKey := K, vchIV := V, fKeySet := true } := by
    cases hset; rfl
  subst hc
  have hE1 : ∀ b, b.length = 16 →
      (prims.aesEncBlock K b).length = 16 := fun b hb => hE K b hK hb
  have hD1 : ∀ b, b.length = 16 →
      prims.aesDecBlock K (prims.aesEncBlock K b) = b := fun b hb => hD K b hK hb
  refine ⟨aesCBCEncrypt (prims.aesEncBlock K) V X, ?_, ?_, ?_, ?_⟩
  · exact Encrypt_eq prims _ X hE1 hV rfl
  · rw [aesCBCEncrypt_length _ _ _ hE1 hV, pkcs7pad_length_eq]
  · rw [aesCBCEncrypt_length _ _ _ hE1 hV]
    exact length_lt_pkcs7pad_length X
  · exact Decrypt_Encrypt prims _ X _ hE1 hD1 hV rfl (Encrypt_eq prims _ X hE1 hV rfl)

/-- The crypter state after loading the all-zero key and IV, used to
evaluate C4 on a concrete input. -/
def cW : CCrypter :=
  { vchKey := List.replicate 32 0, vchIV := List.replicate 16 0, fKeySet := true }

theorem claim_C4_witness :
    Option.bind (CCrypter.Encrypt idPrims cW [5]) (CCrypter.Decrypt idPrims cW) = some [5]
    ∧ Option.map List.length (CCrypter.Encrypt idPrims cW [5]) = some 16 := by
  obtain ⟨ct, h1, h2, h3, h4⟩ :=
    claim_C4 idPrims (List.replicate 32 0) (List.replicate 16 0) [5] cW
      (fun k b _ hb => hb) (fun k b _ _ => rfl) (by decide) (by decide) (by decide)
  refine ⟨?_, ?_⟩
  · rw [h1]
    exact h4
  · rw [h1]
    simpa using h2

/-- C9 (amended): a failing `SetKeyFromPassphrase` returns false; on a
parameter error (`rounds < 1` or salt length ≠ 8) the crypter is left
completely unchanged, while on any later failure (unknown derivation
method / KDF failure) the key and IV buffers are zeroized; in both cases
`fKeySet` keeps its previous value. -/
theorem claim_C9_amended (sha512 : List Nat → List Nat) (c c2 : CCrypter)
    (strKeyData chSalt : List Nat) (nRounds nDerivationMethod : Nat)
    (h : CCrypter.SetKeyFromPassphrase sha512 c strKeyData chSalt nRounds
          nDerivationMethod = (false, c2)) :
    (nRounds < 1 ∨ chSalt.length ≠ 8 → c2 = c)
  ∧ (1 ≤ nRounds → chSalt.length = 8 →
      c2.vchKey = List.replicate 32 0 ∧ c2.vchIV = List.replicate 16 0
      ∧ c2.fKeySet = c.fKeySet) := by
  by_cases hparam : nRounds < 1 ∨ chSalt.length ≠ 8
  · rw [CCrypter.SetKeyFromPassphrase, if_pos hparam] at h
    have hc : c2 = c := by cases h; rfl
    exact ⟨fun _ => hc, fun h1 h2 => by omega⟩
  · rw [CCrypter.SetKeyFromPassphrase, if_neg hparam] at h
    by_cases hm : nDerivationMethod = 0
    · rw [if_pos hm, BytesToKeySHA512AES, if_neg (by omega)] at h
      simp at h
    · rw [if_neg hm] at h
      have hc : c2 = { c with vchKey := List.replicate 32 0,
                              vchIV := List.replicate 16 0 } := by
        cases h; rfl
      subst hc
      exact ⟨fun hp => absurd hp hparam, fun _ _ => ⟨rfl, rfl, rfl⟩⟩

/-- A crypter that already holds a key (via `SetKey`), exhibiting that a
parameter-error failure of `SetKeyFromPassphrase` does not zeroize. -/
def cBad : CCrypter :=
  (CCrypter.SetKey CCrypter.init (List.replicate 32 1) (List.replicate 16 1)).2

theorem claim_C9_counterexample :
    CCrypter.SetKeyFromPassphrase wSha cBad [1, 2] [0, 0, 0] 1 0 = (false, cBad)
    ∧ cBad.vchKey ≠ List.replicate 32 0 ∧ cBad.fKeySet = true := by
  decide

/-- The crypter state produced by the zeroizing failure path from
`cBad`. -/
def cZ : CCrypter :=
  { vchKey := List.replicate 32 0, vchIV := List.replicate 16 0, fKeySet := true }

theorem claim_C9_witness :
    ((1 : Nat) < 1 ∨ (List.replicate 8 0 : List Nat).length ≠ 8 → cZ = cBad)
    ∧ (1 ≤ 1 → (List.replicate 8 0 : List Nat).length = 8 →
        cZ.vchKey = List.replicate 32 0 ∧ cZ.vchIV = List.replicate 16 0
        ∧ cZ.fKeySet = cBad.fKeySet) :=
  claim_C9_amended wSha cBad cZ [1] (List.replicate 8 0) 1 1 (by decide)

/-- Whether one entry of `mapCryptedKeys` fails to decrypt-and-verify
under the candidate master key. -/
def walkFails (prims : WalletPrims) (mk : List Nat)
    (e : Nat × (List Nat × List Nat)) : Bool :=
  (DecryptKey prims mk e.2.2 e.2.1).isNone

/-- The `keyPass` outcome of the `Unlock` walk: some inspected entry
decrypted and verified.  Since the walk stops at the first failure, this
is exactly "the first entry decrypts". -/
def walkKeyPass (prims : WalletPrims) (mk : List Nat) :
    List (Nat × (List Nat × List Nat)) → Bool
  | [] => false
  | e :: _ => !(walkFails prims mk e)

/-- The `keyFail` outcome of the `Unlock` walk: some inspected entry
failed.  On the thorough fast path only the first entry is inspected;
otherwise the walk reaches the first failing entry if one exists. -/
def walkKeyFail (prims : WalletPrims) (mk : List Nat) (thorough : Bool)
    (entries : List (Nat × (List Nat × List Nat))) : Bool :=
  if thorough then
    match entries with
    | [] => false
    | e :: _ => walkFails prims mk e
  else entries.any (walkFails prims mk)

theorem unlockLoop_of_pass (prims : WalletPrims) (mk : List Nat) :
    ∀ l, unlockLoop prims mk false l true = (true, l.any (walkFails prims mk)) := by
  intro l
  induction l with
  | nil => rfl
  | cons e rest ih =>
    rw [unlockLoop]
    cases hDK : DecryptKey prims mk e.2.2 e.2.1 with
    | none => simp [walkFails, hDK]
    | some k => simp [walkFails, hDK, ih]

theorem unlockLoop_spec (prims : WalletPrims) (mk : List Nat) (th : Bool)
    (l : List (Nat × (List Nat × List Nat))) :
    unlockLoop prims mk th l false
      = (walkKeyPass prims mk l, walkKeyFail prims mk th l) := by
  cases l with
  | nil => cases th <;> rfl
  | cons e rest =>
    rw [unlockLoop]
    cases hDK : DecryptKey prims mk e.2.2 e.2.1 with
    | none => cases th <;> simp [walkKeyPass, walkKeyFail, walkFails, hDK]
    | some k =>
      cases th with
      | false => simp [walkKeyPass, walkKeyFail, walkFails, hDK, unlockLoop_of_pass]
      | true => simp [walkKeyPass, walkKeyFail, walkFails, hDK]

/-- C1: on an encrypted store, `Unlock` walks `mapCryptedKeys`; if among
the inspected entries one decrypts and verifies while another fails, the
process aborts (no successor state); if a failure occurred or no entry
succeeded, it returns false with the state (in particular `vMasterKey`)
unchanged; only when every inspected entry succeeds does it store the
master key, set `fDecryptionThoroughlyChecked` and return true. -/
theorem claim_C1 (prims : WalletPrims) (s : CCryptoKeyStore) (m : List Nat)
    (hc : s.fUseCrypto = true) :
    (walkKeyPass prims m s.mapCryptedKeys = true ∧
       walkKeyFail prims m s.fDecryptionThoroughlyChecked s.mapCryptedKeys = true →
       Unlock prims s m = none)
  ∧ (walkKeyPass prims m s.mapCryptedKeys = false →
       Unlock prims s m = some (false, s))
  ∧ (walkKeyPass prims m s.mapCryptedKeys = true ∧
       walkKeyFail prims m s.fDecryptionThoroughlyChecked s.mapCryptedKeys = false →
       Unlock prims s m = some (true,
         { s with vMasterKey := m, fDecryptionThoroughlyChecked := true })) := by
  have hsc : SetCrypted s = (true, s) := by rw [SetCrypted, if_pos hc]
  rw [Unlock, hsc]
  simp only [unlockLoop_spec]
  refine ⟨fun h => ?_, fun h => ?_, fun h => ?_⟩
  · simp [h.1, h.2]
  · simp [h]
  · simp [h.1, h.2]

/-- An encrypted store with no crypted keys, for evaluating C1. -/
def sCr : CCryptoKeyStore := { CCryptoKeyStore.initial with fUseCrypto := true }

theorem claim_C1_witness :
    (walkKeyPass idPrims [] sCr.mapCryptedKeys = true ∧
       walkKeyFail idPrims [] sCr.fDecryptionThoroughlyChecked sCr.mapCryptedKeys = true →
       Unlock idPrims sCr [] = none)
  ∧ (walkKeyPass idPrims [] sCr.mapCryptedKeys = false →
       Unlock idPrims sCr [] = some (false, sCr))
  ∧ (walkKeyPass idPrims [] sCr.mapCryptedKeys = true ∧
       walkKeyFail idPrims [] sCr.fDecryptionThoroughlyChecked sCr.mapCryptedKeys = false →
       Unlock idPrims sCr [] = some (true,
         { sCr with vMasterKey := [], fDecryptionThoroughlyChecked := true })) :=
  claim_C1 idPrims sCr [] rfl

/-- C8 (amended): on an encrypted, locked store whose transient
plaintext paper-key cache is empty, `GetPaperKey` fails, whatever the
rest of the state is. -/
theorem claim_C8_amended (prims : WalletPrims) (s : CCryptoKeyStore)
    (hc : s.fUseCrypto = true) (hl : s.vMasterKey = []) (hp : s.paperKey = []) :
    GetPaperKey prims s = none := by
  rw [GetPaperKey, if_neg (by simp [hp]), if_neg (by simp [hc])]
  exact DecryptSecret_badkey prims _ _ _ (by rw [hl]; decide)

/-- A store reached by `AddPaperKey` (uncrypted) followed by `Lock`:
encrypted and locked, but with the plaintext paper-key cache set. -/
def sPaper : CCryptoKeyStore :=
  (Lock (AddPaperKey idPrims CCryptoKeyStore.initial [1]).2).2

theorem claim_C8_counterexample :
    Reach idPrims sPaper ∧ sPaper.fUseCrypto = true ∧ sPaper.vMasterKey = []
    ∧ GetPaperKey idPrims sPaper ≠ none := by
  refine ⟨?_, by decide, by decide, by decide⟩
  exact Reach.step _ _ (Reach.step _ _ Reach.init (Step.addPaperKey _ [1])) (Step.lock _)

theorem claim_C8_witness : GetPaperKey idPrims sCr = none :=
  claim_C8_amended idPrims sCr rfl rfl rfl

theorem SetCrypted_of_crypted (s : CCryptoKeyStore) (hc : s.fUseCrypto = true) :
    SetCrypted s = (true, s) := by
  rw [SetCrypted, if_pos hc]

theorem Lock_of_crypted (s : CCryptoKeyStore) (hc : s.fUseCrypto = true) :
    Lock s = (true, { s with vMasterKey := [] }) := by
  rw [Lock, SetCrypted_of_crypted s hc]

theorem Unlock_result (prims : WalletPrims) (s : CCryptoKeyStore) (m : List Nat)
    (b : Bool) (s1 : CCryptoKeyStore) (h : Unlock prims s m = some (b, s1)) :
    s1 = (SetCrypted s).2
    ∨ s1 = { (SetCrypted s).2 with
               vMasterKey := m, fDecryptionThoroughlyChecked := true } := by
  rw [Unlock] at h
  rcases hsc : SetCrypted s with ⟨b2, s2⟩
  rw [hsc] at h
  cases b2 with
  | false =>
    simp only [Option.some.injEq, Prod.mk.injEq] at h
    left; exact h.2.symm
  | true =>
    simp only at h
    split at h
    · exact absurd h (by simp)
    · split at h
      · simp only [Option.some.injEq, Prod.mk.injEq] at h
        left; exact h.2.symm
      · simp only [Option.some.injEq, Prod.mk.injEq] at h
        right; exact h.2.symm

theorem AddCryptedKey_mono (prims : WalletPrims) (s : CCryptoKeyStore)
    (pub ct : List Nat) (hc : s.fUseCrypto = true) :
    (AddCryptedKey prims s pub ct).2.fUseCrypto = true := by
  rw [AddCryptedKey, SetCrypted_of_crypted s hc]
  exact hc

theorem AddCryptedPaperKey_mono (s : CCryptoKeyStore) (v : List Nat)
    (hc : s.fUseCrypto = true) : (AddCryptedPaperKey s v).2.fUseCrypto = true := by
  rw [AddCryptedPaperKey, SetCrypted_of_crypted s hc]
  exact hc

theorem AddCryptedPinCode_mono (s : CCryptoKeyStore) (v : List Nat)
    (hc : s.fUseCrypto = true) : (AddCryptedPinCode s v).2.fUseCrypto = true := by
  rw [AddCryptedPinCode, SetCrypted_of_crypted s hc]
  exact hc

theorem AddKeyPubKey_mono (prims : WalletPrims) (s : CCryptoKeyStore) (key : CKey)
    (pub : List Nat) (hc : s.fUseCrypto = true) :
    (AddKeyPubKey prims s key pub).2.fUseCrypto = true := by
  rw [AddKeyPubKey, if_neg (by simp [hc])]
  by_cases hl : s.IsLocked = true
  · simp [hl, hc]
  · simp only [hl, if_false, Bool.false_eq_true]
    cases hse : EncryptSecret prims s.vMasterKey key.data (prims.pubGetHash pub) with
    | none => simp [hse, hc]
    | some ct => simp [hse, AddCryptedKey_mono prims s pub ct hc]

theorem AddPaperKey_mono (prims : WalletPrims) (s : CCryptoKeyStore) (p : List Nat)
    (hc : s.fUseCrypto = true) : (AddPaperKey prims s p).2.fUseCrypto = true := by
  rw [AddPaperKey, if_neg (by simp [hc])]
  by_cases hl : s.IsLocked = true
  · simp [hl, hc]
  · simp only [hl, if_false, Bool.false_eq_true]
    cases hse : EncryptSecret prims s.vMasterKey p (DoubleHashOfString prims paperkeyLabel) with
    | none => simp [hse, hc]
    | some ct => simp [hse, AddCryptedPaperKey_mono s ct hc]

theorem AddPinCode_mono (prims : WalletPrims) (s : CCryptoKeyStore) (p : List Nat)
    (hc : s.fUseCrypto = true) : (AddPinCode prims s p).2.fUseCrypto = true := by
  rw [AddPinCode, if_neg (by simp [hc])]
  by_cases hl : s.IsLocked = true
  · simp [hl, hc]
  · simp only [hl, if_false, Bool.false_eq_true]
    cases hse : EncryptSecret prims s.vMasterKey p (DoubleHashOfString prims pincodeLabel) with
    | none => simp [hse, hc]
    | some ct => simp [hse, AddCryptedPinCode_mono s ct hc]

theorem DecryptPaperKey_mono (prims : WalletPrims) (s : CCryptoKeyStore)
    (hc : s.fUseCrypto = true) : (DecryptPaperKey prims s).fUseCrypto = true := by
  rw [DecryptPaperKey]
  cases GetPaperKey prims s <;> simp [hc]

theorem DecryptPinCode_mono (prims : WalletPrims) (s : CCryptoKeyStore)
    (hc : s.fUseCrypto = true) : (DecryptPinCode prims s).fUseCrypto = true := by
  rw [DecryptPinCode]
  cases GetPinCode prims s <;> simp [hc]

theorem EncryptPaperKey_mono (prims : WalletPrims) (s : CCryptoKeyStore) (m : List Nat)
    (hc : s.fUseCrypto = true) : (EncryptPaperKey prims s m).2.fUseCrypto = true := by
  rw [EncryptPaperKey]
  by_cases hl : s.IsLocked = true
  · simp [hl, hc]
  · simp only [hl, if_false, Bool.false_eq_true]
    cases GetPaperKey prims s with
    | none => simp [hc]
    | some pk =>
      simp only
      cases EncryptSecret prims m pk (DoubleHashOfString prims paperkeyLabel) <;> simp [hc]

theorem EncryptPinCode_mono (prims : WalletPrims) (s : CCryptoKeyStore) (m : List Nat)
    (hc : s.fUseCrypto = true) : (EncryptPinCode prims s m).2.fUseCrypto = true := by
  rw [EncryptPinCode]
  by_cases hl : s.IsLocked = true
  · simp [hl, hc]
  · simp only [hl, if_false, Bool.false_eq_true]
    cases GetPinCode prims s with
    | none => simp [hc]
    | some pc =>
      simp only
      cases EncryptSecret prims m pc (DoubleHashOfString prims pincodeLabel) <;> simp [hc]

theorem EncryptKeys_of_crypted (prims : WalletPrims) (s : CCryptoKeyStore)
    (m : List Nat) (hc : s.fUseCrypto = true) : EncryptKeys prims s m = (false, s) := by
  rw [EncryptKeys, if_pos (Or.inr hc)]

/-- C7: `fUseCrypto` never transitions from true to false across any
public operation; in particular a second `EncryptKeys` call on an
already-encrypted store returns false and leaves the state (hence the
flag) unchanged. -/
theorem claim_C7 :
    (∀ (prims : WalletPrims) (s s1 : CCryptoKeyStore),
       Step prims s s1 → s.fUseCrypto = true → s1.fUseCrypto = true)
  ∧ (∀ (prims : WalletPrims) (s : CCryptoKeyStore) (m : List Nat),
       s.fUseCrypto = true → EncryptKeys prims s m = (false, s)) := by
  constructor
  · intro prims s s1 hstep hc
    cases hstep with
    | lock => rw [Lock_of_crypted s hc]; exact hc
    | unlock m b _ h =>
      rcases Unlock_result prims s m b s1 h with h1 | h1 <;>
        rw [h1, SetCrypted_of_crypted s hc] <;> exact hc
    | addKeyPubKey key pub => exact AddKeyPubKey_mono prims s key pub hc
    | addCryptedKey pub ct => exact AddCryptedKey_mono prims s pub ct hc
    | encryptKeys m => rw [EncryptKeys_of_crypted prims s m hc]; exact hc
    | addPaperKey p => exact AddPaperKey_mono prims s p hc
    | addCryptedPaperKey v => exact AddCryptedPaperKey_mono s v hc
    | decryptPaperKey => exact DecryptPaperKey_mono prims s hc
    | encryptPaperKey m => exact EncryptPaperKey_mono prims s m hc
    | addPinCode p => exact AddPinCode_mono prims s p hc
    | addCryptedPinCode v => exact AddCryptedPinCode_mono s v hc
    | decryptPinCode => exact DecryptPinCode_mono prims s hc
    | encryptPinCode m => exact EncryptPinCode_mono prims s m hc
  · intro prims s m hc
    exact EncryptKeys_of_crypted prims s m hc

theorem claim_C7_witness :
    ((Lock sCr).2.fUseCrypto = true) ∧ EncryptKeys idPrims sCr [] = (false, sCr) :=
  ⟨claim_C7.1 idPrims sCr (Lock sCr).2 (Step.lock sCr) rfl,
   claim_C7.2 idPrims sCr [] rfl⟩

theorem mapLookup_mapInsert_self {α : Type} (k : Nat) (v : α) :
    ∀ l : List (Nat × α), mapLookup k (mapInsert k v l) = some v := by
  intro l
  induction l with
  | nil => simp [mapInsert, mapLookup, List.find?]
  | cons e rest ih =>
    obtain ⟨k1, v1⟩ := e
    rw [mapInsert]
    by_cases h1 : k < k1
    · simp [h1, mapLookup, List.find?]
    · by_cases h2 : k = k1
      · simp [h1, h2, mapLookup, List.find?]
      · have hne : (k1 == k) = false := beq_eq_false_iff_ne.mpr fun hh => h2 hh.symm
        simp only [if_neg h1, if_neg h2, mapLookup, List.find?_cons, hne]
        exact ih

theorem mapInsert_mem {α : Type} (k : Nat) (v : α) :
    ∀ (l : List (Nat × α)) (e : Nat × α), e ∈ mapInsert k v l → e = (k, v) ∨ e ∈ l := by
  intro l
  induction l with
  | nil => intro e he; simp [mapInsert] at he; exact Or.inl he
  | cons e1 rest ih =>
    obtain ⟨k1, v1⟩ := e1
    intro e he
    rw [mapInsert] at he
    by_cases h1 : k < k1
    · rw [if_pos h1] at he
      rcases List.mem_cons.mp he with h | h
      · exact Or.inl h
      · exact Or.inr h
    · by_cases h2 : k = k1
      · rw [if_neg h1, if_pos h2] at he
        rcases List.mem_cons.mp he with h | h
        · exact Or.inl h
        · exact Or.inr (List.mem_cons_of_mem _ h)
      · rw [if_neg h1, if_neg h2] at he
        rcases List.mem_cons.mp he with h | h
        · exact Or.inr (by rw [h]; exact List.mem_cons_self _ _)
        · rcases ih e h with h3 | h3
          · exact Or.inl h3
          · exact Or.inr (List.mem_cons_of_mem _ h3)

theorem mapInsert_ne_nil {α : Type} (k : Nat) (v : α) (l : List (Nat × α)) :
    mapInsert k v l ≠ [] := by
  cases l with
  | nil => simp [mapInsert]
  | cons e rest =>
    obtain ⟨k1, v1⟩ := e
    rw [mapInsert]
    by_cases h1 : k < k1
    · simp [h1]
    · by_cases h2 : k = k1 <;> simp [h1, h2]

theorem mapInsert_keys_mem {α : Type} (k : Nat) (v : α) :
    ∀ (l : List (Nat × α)) (x : Nat),
      x ∈ (mapInsert k v l).map Prod.fst → x = k ∨ x ∈ l.map Prod.fst := by
  intro l x hx
  rw [List.mem_map] at hx
  obtain ⟨e, he, hex⟩ := hx
  rcases mapInsert_mem k v l e he with h | h
  · left; rw [← hex, h]
  · right; rw [List.mem_map]; exact ⟨e, h, hex⟩

theorem mapInsert_sorted {α : Type} (k : Nat) (v : α) :
    ∀ l : List (Nat × α), ((l.map Prod.fst).Sorted (· < ·)) →
      (((mapInsert k v l).map Prod.fst).Sorted (· < ·)) := by
  intro l
  induction l with
  | nil => intro _; simp [mapInsert, List.Sorted]
  | cons e1 rest ih =>
    obtain ⟨k1, v1⟩ := e1
    intro hs
    rw [List.map_cons, List.Sorted] at hs
    have hs1 : ∀ x ∈ rest.map Prod.fst, k1 < x := (List.pairwise_cons.mp hs).1
    have hs2 : (rest.map Prod.fst).Sorted (· < ·) := (List.pairwise_cons.mp hs).2
    rw [mapInsert]
    by_cases h1 : k < k1
    · rw [if_pos h1]
      simp only [List.map_cons, List.Sorted]
      rw [List.pairwise_cons]
      refine ⟨?_, hs⟩
      intro x hx
      rcases List.mem_cons.mp hx with h | h
      · omega
      · have := hs1 x h; omega
    · by_cases h2 : k = k1
      · rw [if_neg h1, if_pos h2]
        simp only [List.map_cons, List.Sorted]
        rw [List.pairwise_cons]
        refine ⟨?_, hs2⟩
        intro x hx
        have := hs1 x hx
        omega
      · rw [if_neg h1, if_neg h2]
        simp only [List.map_cons, List.Sorted]
        rw [List.pairwise_cons]
        refine ⟨?_, ih hs2⟩
        intro x hx
        rcases mapInsert_keys_mem k v rest x hx with h | h
        · omega
        · exact hs1 x h

theorem sorted_keys_nodup {α : Type} (l : List (Nat × α))
    (h : (l.map Prod.fst).Sorted (· < ·)) : (l.map Prod.fst).Nodup :=
  h.nodup

theorem SetCrypted_snd (s : CCryptoKeyStore) :
    (SetCrypted s).2 = s ∨ (SetCrypted s).2 = { s with fUseCrypto := true } := by
  rw [SetCrypted]
  split_ifs <;> simp

theorem SetCrypted_mapCryptedKeys (s : CCryptoKeyStore) :
    (SetCrypted s).2.mapCryptedKeys = s.mapCryptedKeys := by
  rcases SetCrypted_snd s with h | h <;> rw [h]

theorem SetCrypted_mapKeys (s : CCryptoKeyStore) :
    (SetCrypted s).2.mapKeys = s.mapKeys := by
  rcases SetCrypted_snd s with h | h <;> rw [h]

theorem AddCryptedKey_map (prims : WalletPrims) (s : CCryptoKeyStore)
    (pub ct : List Nat) :
    (AddCryptedKey prims s pub ct).2.mapCryptedKeys = s.mapCryptedKeys
    ∨ (AddCryptedKey prims s pub ct).2.mapCryptedKeys
        = mapInsert (prims.pubGetID pub) (pub, ct) s.mapCryptedKeys := by
  rw [AddCryptedKey]
  rcases hsc : SetCrypted s with ⟨b, s1⟩
  have hmap : s1.mapCryptedKeys = s.mapCryptedKeys := by
    have := SetCrypted_mapCryptedKeys s
    rw [hsc] at this
    exact this
  cases b
  · left; exact hmap
  · right; simp only; rw [hmap]

theorem Lock_mapCryptedKeys (s : CCryptoKeyStore) :
    (Lock s).2.mapCryptedKeys = s.mapCryptedKeys := by
  rw [Lock]
  rcases hsc : SetCrypted s with ⟨b, s1⟩
  have hmap : s1.mapCryptedKeys = s.mapCryptedKeys := by
    have := SetCrypted_mapCryptedKeys s
    rw [hsc] at this
    exact this
  cases b <;> simpa using hmap

theorem AddCryptedPaperKey_mapCryptedKeys (s : CCryptoKeyStore) (v : List Nat) :
    (AddCryptedPaperKey s v).2.mapCryptedKeys = s.mapCryptedKeys := by
  rw [AddCryptedPaperKey]
  rcases hsc : SetCrypted s with ⟨b, s1⟩
  have hmap : s1.mapCryptedKeys = s.mapCryptedKeys := by
    have := SetCrypted_mapCryptedKeys s
    rw [hsc] at this
    exact this
  cases b <;> simpa using hmap

theorem AddCryptedPinCode_mapCryptedKeys (s : CCryptoKeyStore) (v : List Nat) :
    (AddCryptedPinCode s v).2.mapCryptedKeys = s.mapCryptedKeys := by
  rw [AddCryptedPinCode]
  rcases hsc : SetCrypted s with ⟨b, s1⟩
  have hmap : s1.mapCryptedKeys = s.mapCryptedKeys := by
    have := SetCrypted_mapCryptedKeys s
    rw [hsc] at this
    exact this
  cases b <;> simpa using hmap

theorem AddPaperKey_mapCryptedKeys (prims : WalletPrims) (s : CCryptoKeyStore)
    (p : List Nat) : (AddPaperKey prims s p).2.mapCryptedKeys = s.mapCryptedKeys := by
  rw [AddPaperKey]
  split
  · rfl
  · split
    · rfl
    · cases hse : EncryptSecret prims s.vMasterKey p
          (DoubleHashOfString prims paperkeyLabel) with
      | none => rfl
      | some v => exact AddCryptedPaperKey_mapCryptedKeys s v

theorem AddPinCode_mapCryptedKeys (prims : WalletPrims) (s : CCryptoKeyStore)
    (p : List Nat) : (AddPinCode prims s p).2.mapCryptedKeys = s.mapCryptedKeys := by
  rw [AddPinCode]
  split
  · rfl
  · split
    · rfl
    · cases hse : EncryptSecret prims s.vMasterKey p
          (DoubleHashOfString prims pincodeLabel) with
      | none => rfl
      | some v => exact AddCryptedPinCode_mapCryptedKeys s v

theorem DecryptPaperKey_mapCryptedKeys (prims : WalletPrims) (s : CCryptoKeyStore) :
    (DecryptPaperKey prims s).mapCryptedKeys = s.mapCryptedKeys := by
  rw [DecryptPaperKey]
  cases GetPaperKey prims s <;> rfl

theorem DecryptPinCode_mapCryptedKeys (prims : WalletPrims) (s : CCryptoKeyStore) :
    (DecryptPinCode prims s).mapCryptedKeys = s.mapCryptedKeys := by
  rw [DecryptPinCode]
  cases GetPinCode prims s <;> rfl

theorem EncryptPaperKey_mapCryptedKeys (prims : WalletPrims) (s : CCryptoKeyStore)
    (m : List Nat) : (EncryptPaperKey prims s m).2.mapCryptedKeys = s.mapCryptedKeys := by
  rw [EncryptPaperKey]
  split
  · rfl
  · cases GetPaperKey prims s with
    | none => rfl
    | some pk =>
      simp only
      cases EncryptSecret prims m pk (DoubleHashOfString prims paperkeyLabel) <;> rfl

theorem EncryptPinCode_mapCryptedKeys (prims : WalletPrims) (s : CCryptoKeyStore)
    (m : List Nat) : (EncryptPinCode prims s m).2.mapCryptedKeys = s.mapCryptedKeys := by
  rw [EncryptPinCode]
  split
  · rfl
  · cases GetPinCode prims s with
    | none => rfl
    | some pc =>
      simp only
      cases EncryptSecret prims m pc (DoubleHashOfString prims pincodeLabel) <;> rfl

theorem encryptKeysLoop_sorted (prims : WalletPrims) (m : List Nat) :
    ∀ (l : List (Nat × CKey)) (s : CCryptoKeyStore),
      ((s.mapCryptedKeys.map Prod.fst).Sorted (· < ·)) →
      (((encryptKeysLoop prims m l s).2.mapCryptedKeys.map Prod.fst).Sorted (· < ·)) := by
  intro l
  induction l with
  | nil => intro s hs; exact hs
  | cons e rest ih =>
    obtain ⟨id0, key⟩ := e
    intro s hs
    rw [encryptKeysLoop]
    cases hse : EncryptSecret prims m key.data
        (prims.pubGetHash (prims.derivePub key.data key.fCompressed)) with
    | none => exact hs
    | some ct =>
      simp only
      rcases hak : AddCryptedKey prims s (prims.derivePub key.data key.fCompressed) ct
        with ⟨b, s1⟩
      have hmap := AddCryptedKey_map prims s (prims.derivePub key.data key.fCompressed) ct
      rw [hak] at hmap
      have hs1 : ((s1.mapCryptedKeys.map Prod.fst).Sorted (· < ·)) := by
        rcases hmap with h | h
        · rw [h]; exact hs
        · rw [h]; exact mapInsert_sorted _ _ _ hs
      cases b
      · exact hs1
      · exact ih s1 hs1

theorem Step_sorted (prims : WalletPrims) (s s1 : CCryptoKeyStore)
    (hstep : Step prims s s1)
    (hs : ((s.mapCryptedKeys.map Prod.fst).Sorted (· < ·))) :
    ((s1.mapCryptedKeys.map Prod.fst).Sorted (· < ·)) := by
  cases hstep with
  | lock => rw [Lock_mapCryptedKeys]; exact hs
  | unlock m b _ h =>
    rcases Unlock_result prims s m b s1 h with h1 | h1 <;>
      rw [h1] <;> simp only [SetCrypted_mapCryptedKeys] <;> exact hs
  | addKeyPubKey key pub =>
    rw [AddKeyPubKey]
    split
    · exact hs
    · split
      · exact hs
      · cases hse : EncryptSecret prims s.vMasterKey key.data (prims.pubGetHash pub) with
        | none => exact hs
        | some ct =>
          simp only
          rcases AddCryptedKey_map prims s pub ct with h | h
          · rw [h]; exact hs
          · rw [h]; exact mapInsert_sorted _ _ _ hs
  | addCryptedKey pub ct =>
    rcases AddCryptedKey_map prims s pub ct with h | h
    · rw [h]; exact hs
    · rw [h]; exact mapInsert_sorted _ _ _ hs
  | encryptKeys m =>
    rw [EncryptKeys]
    split
    · exact hs
    · rcases hloop : encryptKeysLoop prims m s.mapKeys { s with fUseCrypto := true }
        with ⟨b, s2⟩
      have := encryptKeysLoop_sorted prims m s.mapKeys { s with fUseCrypto := true } hs
      rw [hloop] at this
      cases b
      · exact this
      · exact this
  | addPaperKey p => rw [AddPaperKey_mapCryptedKeys]; exact hs
  | addCryptedPaperKey v => rw [AddCryptedPaperKey_mapCryptedKeys]; exact hs
  | decryptPaperKey => rw [DecryptPaperKey_mapCryptedKeys]; exact hs
  | encryptPaperKey m => rw [EncryptPaperKey_mapCryptedKeys]; exact hs
  | addPinCode p => rw [AddPinCode_mapCryptedKeys]; exact hs
  | addCryptedPinCode v => rw [AddCryptedPinCode_mapCryptedKeys]; exact hs
  | decryptPinCode => rw [DecryptPinCode_mapCryptedKeys]; exact hs
  | encryptPinCode m => rw [EncryptPinCode_mapCryptedKeys]; exact hs

/-- C10: `AddCryptedKey` returns exactly what `SetCrypted` returns; on
success it stores `(pub, ct)` in `mapCryptedKeys` under `pub.GetID()`,
replacing any existing entry with that id (the lookup after the insert
yields the new pair, so the most recent insertion wins); and in every
reachable state the key ids of `mapCryptedKeys` are strictly sorted and
hence contain no duplicates. -/
theorem claim_C10 :
    (∀ (prims : WalletPrims) (s : CCryptoKeyStore) (pub ct : List Nat),
        (AddCryptedKey prims s pub ct).1 = (SetCrypted s).1)
  ∧ (∀ (prims : WalletPrims) (s : CCryptoKeyStore) (pub ct : List Nat),
        (SetCrypted s).1 = true →
        (AddCryptedKey prims s pub ct).2.mapCryptedKeys
          = mapInsert (prims.pubGetID pub) (pub, ct) s.mapCryptedKeys)
  ∧ (∀ (k : Nat) (v : List Nat × List Nat) (l : List (Nat × (List Nat × List Nat))),
        mapLookup k (mapInsert k v l) = some v)
  ∧ (∀ (prims : WalletPrims) (s : CCryptoKeyStore), Reach prims s →
        ((s.mapCryptedKeys.map Prod.fst).Sorted (· < ·))
        ∧ (s.mapCryptedKeys.map Prod.fst).Nodup) := by
  refine ⟨?_, ?_, ?_, ?_⟩
  · intro prims s pub ct
    rw [AddCryptedKey]
    rcases hsc : SetCrypted s with ⟨b, s1⟩
    cases b <;> rfl
  · intro prims s pub ct h
    rcases hsc : SetCrypted s with ⟨b, s1⟩
    rw [hsc] at h
    simp only at h
    subst h
    have hmap : s1.mapCryptedKeys = s.mapCryptedKeys := by
      have := SetCrypted_mapCryptedKeys s
      rw [hsc] at this
      exact this
    rw [AddCryptedKey, hsc]
    simp only
    rw [hmap]
  · intro k v l
    exact mapLookup_mapInsert_self k v l
  · intro prims s hr
    induction hr with
    | init => constructor <;> simp [CCryptoKeyStore.initial]
    | step s2 s3 _ hstep ih =>
      have hsorted := Step_sorted prims s2 s3 hstep ih.1
      exact ⟨hsorted, sorted_keys_nodup _ hsorted⟩

theorem claim_C10_witness :
    mapLookup 5 (mapInsert 5 ([1], [2]) []) = some ([1], [2])
    ∧ (CCryptoKeyStore.initial.mapCryptedKeys.map Prod.fst).Nodup :=
  ⟨claim_C10.2.2.1 5 ([1], [2]) [],
   (claim_C10.2.2.2 idPrims CCryptoKeyStore.initial Reach.init).2⟩

theorem idPrims_hE : ∀ k b : List Nat, k.length = 32 → b.length = 16 →
    (idPrims.aesEncBlock k b).length = 16 := fun _ _ _ hb => hb

theorem idPrims_hD : ∀ k b : List Nat, k.length = 32 → b.length = 16 →
    idPrims.aesDecBlock k (idPrims.aesEncBlock k b) = b := fun _ _ _ _ => rfl

theorem idPrims_hComp : ∀ (d : List Nat) (c : Bool),
    idPrims.pubIsCompressed (idPrims.derivePub d c) = c := by
  intro d c
  show ((d ++ [if c then 1 else 0]).getLastD 0 == 1) = c
  rw [List.getLastD_concat]
  cases c <;> rfl

theorem idPrims_hH : ∀ p : List Nat, 16 ≤ (idPrims.pubGetHash p).length := by
  intro p
  show 16 ≤ (List.replicate 32 0).length
  simp

/-- C5: on an encrypted store unlocked with a 32-byte master key, after
a successful `AddKeyPubKey(priv, pub)` with `pub` the public key derived
from `priv`, `GetKey(pub.GetID())` decrypts and returns exactly `priv`. -/
theorem claim_C5 (prims : WalletPrims) (s s2 : CCryptoKeyStore) (key : CKey)
    (pub M : List Nat)
    (hE : ∀ k b, k.length = 32 → b.length = 16 → (prims.aesEncBlock k b).length = 16)
    (hD : ∀ k b, k.length = 32 → b.length = 16 →
      prims.aesDecBlock k (prims.aesEncBlock k b) = b)
    (hComp : ∀ d c, prims.pubIsCompressed (prims.derivePub d c) = c)
    (hH : ∀ p, 16 ≤ (prims.pubGetHash p).length)
    (hM32 : M.length = 32) (hkey : key.data.length = 32)
    (hcr : s.fUseCrypto = true) (hmaster : s.vMasterKey = M)
    (hpub : pub = prims.derivePub key.data key.fCompressed)
    (hadd : AddKeyPubKey prims s key pub = (true, s2)) :
    GetKey prims s2 (prims.pubGetID pub) = some key := by
  subst hpub
  have hMne : s.vMasterKey ≠ [] := by
    rw [hmaster]
    intro hh
    rw [hh] at hM32
    simp at hM32
  have hlock : s.IsLocked = false := by
    rw [CCryptoKeyStore.IsLocked, hcr]
    simpa [List.isEmpty_iff] using hMne
  have henc := EncryptSecret_eq prims M key.data
    (prims.pubGetHash (prims.derivePub key.data key.fCompressed)) hE hM32 (hH _)
  rw [AddKeyPubKey, if_neg (by simp [hcr]), if_neg (by simp [hlock]),
      hmaster, henc] at hadd
  simp only [AddCryptedKey, SetCrypted_of_crypted s hcr,
             Prod.mk.injEq, true_and] at hadd
  subst hadd
  rw [GetKey, if_neg (by simp [hcr])]
  simp only [mapLookup_mapInsert_self]
  rw [show ({ s with
      mapCryptedKeys := mapInsert (prims.pubGetID (prims.derivePub key.data key.fCompressed))
        (prims.derivePub key.data key.fCompressed,
         aesCBCEncrypt (prims.aesEncBlock M)
           ((prims.pubGetHash (prims.derivePub key.data key.fCompressed)).take 16) key.data)
        s.mapCryptedKeys } : CCryptoKeyStore).vMasterKey = M from hmaster]
  exact DecryptKey_good prims M key _ hE hD hComp hH hM32 hkey henc

/-- A concrete private key for evaluating C5. -/
def keyW : CKey := { data := List.replicate 32 7, fCompressed := true }

/-- An encrypted store unlocked with the all-zero 32-byte master key. -/
def sU : CCryptoKeyStore :=
  { CCryptoKeyStore.initial with fUseCrypto := true, vMasterKey := List.replicate 32 0 }

/-- The public key derived from `keyW` under `idPrims`. -/
def pubW : List Nat := idPrims.derivePub keyW.data keyW.fCompressed

/-- The store after adding `keyW` to `sU`. -/
def sU2 : CCryptoKeyStore := (AddKeyPubKey idPrims sU keyW pubW).2

theorem claim_C5_witness : GetKey idPrims sU2 (idPrims.pubGetID pubW) = some keyW :=
  claim_C5 idPrims sU sU2 keyW pubW (List.replicate 32 0) idPrims_hE idPrims_hD
    idPrims_hComp idPrims_hH (by decide) (by decide) rfl rfl rfl (by decide)

/-- An entry of `mapCryptedKeys` produced by encrypting a well-formed
32-byte private key under the master key `m`: the stored public key is
the one derived from the key, and the ciphertext is its encryption under
`m` with IV seed `pub.GetHash()`. -/
def GoodEntry (prims : WalletPrims) (m : List Nat)
    (e : Nat × (List Nat × List Nat)) : Prop :=
  ∃ key : CKey, key.data.length = 32
    ∧ e.2.1 = prims.derivePub key.data key.fCompressed
    ∧ EncryptSecret prims m key.data
        (prims.pubGetHash (prims.derivePub key.data key.fCompressed)) = some e.2.2

theorem AddCryptedKey_of_crypted (prims : WalletPrims) (s : CCryptoKeyStore)
    (pub ct : List Nat) (hc : s.fUseCrypto = true) :
    AddCryptedKey prims s pub ct
      = (true, { s with mapCryptedKeys :=
                   mapInsert (prims.pubGetID pub) (pub, ct) s.mapCryptedKeys }) := by
  simp [AddCryptedKey, SetCrypted_of_crypted s hc]

theorem encryptKeysLoop_inv (prims : WalletPrims) (m : List Nat) :
    ∀ (l : List (Nat × CKey)) (s s1 : CCryptoKeyStore),
      s.fUseCrypto = true →
      (∀ e ∈ l, (e : Nat × CKey).2.data.length = 32) →
      encryptKeysLoop prims m l s = (true, s1) →
      s1.vMasterKey = s.vMasterKey
      ∧ s1.fDecryptionThoroughlyChecked = s.fDecryptionThoroughlyChecked
      ∧ s1.mapKeys = s.mapKeys
      ∧ s1.fUseCrypto = true
      ∧ (∀ e ∈ s1.mapCryptedKeys, e ∈ s.mapCryptedKeys ∨ GoodEntry prims m e)
      ∧ (l ≠ [] ∨ s.mapCryptedKeys ≠ [] → s1.mapCryptedKeys ≠ []) := by
  intro l
  induction l with
  | nil =>
    intro s s1 hc _ hloop
    rw [encryptKeysLoop] at hloop
    simp only [Prod.mk.injEq, true_and] at hloop
    subst hloop
    exact ⟨rfl, rfl, rfl, hc, fun e he => Or.inl he, fun h => by
      rcases h with h | h
      · exact absurd rfl h
      · exact h⟩
  | cons e0 rest ih =>
    obtain ⟨id0, key⟩ := e0
    intro s s1 hc hkeys hloop
    rw [encryptKeysLoop] at hloop
    cases hse : EncryptSecret prims m key.data
        (prims.pubGetHash (prims.derivePub key.data key.fCompressed)) with
    | none =>
      rw [hse] at hloop
      simp at hloop
    | some ct =>
      simp only [hse, AddCryptedKey_of_crypted prims s
        (prims.derivePub key.data key.fCompressed) ct hc] at hloop
      have hgood : GoodEntry prims m
          (prims.pubGetID (prims.derivePub key.data key.fCompressed),
           (prims.derivePub key.data key.fCompressed, ct)) :=
        ⟨key, hkeys (id0, key) (List.mem_cons_self _ _), rfl, hse⟩
      have ihres := ih _ s1 (by exact hc)
        (fun e he => hkeys e (List.mem_cons_of_mem _ he)) hloop
      obtain ⟨h1, h2, h3, h4, h5, h6⟩ := ihres
      refine ⟨h1, h2, h3, h4, ?_, ?_⟩
      · intro e he
        rcases h5 e he with h | h
        · simp only at h
          rcases mapInsert_mem _ _ _ e h with h7 | h7
          · right; rw [h7]; exact hgood
          · left; exact h7
        · right; exact h
      · intro _
        apply h6
        right
        simp only
        exact mapInsert_ne_nil _ _ _

theorem EncryptKeys_true (prims : WalletPrims) (s0 s1 : CCryptoKeyStore) (M : List Nat)
    (hkeys : ∀ e ∈ s0.mapKeys, (e : Nat × CKey).2.data.length = 32)
    (henc : EncryptKeys prims s0 M = (true, s1)) :
    s1.fUseCrypto = true
    ∧ s1.vMasterKey = s0.vMasterKey
    ∧ s1.fDecryptionThoroughlyChecked = s0.fDecryptionThoroughlyChecked
    ∧ s1.mapKeys = []
    ∧ (∀ e ∈ s1.mapCryptedKeys, GoodEntry prims M e)
    ∧ (s0.mapKeys ≠ [] → s1.mapCryptedKeys ≠ []) := by
  rw [EncryptKeys] at henc
  split at henc
  · simp at henc
  · rename_i hpre
    push_neg at hpre
    obtain ⟨hmap0, _⟩ := hpre
    rcases hloop : encryptKeysLoop prims M s0.mapKeys { s0 with fUseCrypto := true }
      with ⟨b, sL⟩
    rw [hloop] at henc
    cases b
    · simp at henc
    · simp only [Prod.mk.injEq, true_and] at henc
      subst henc
      have hinv := encryptKeysLoop_inv prims M s0.mapKeys
        { s0 with fUseCrypto := true } sL rfl hkeys hloop
      obtain ⟨h1, h2, h3, h4, h5, h6⟩ := hinv
      refine ⟨h4, h1, h2, rfl, ?_, ?_⟩
      · intro e he
        rcases h5 e he with h | h
        · rw [show ({ s0 with fUseCrypto := true } : CCryptoKeyStore).mapCryptedKeys
              = s0.mapCryptedKeys from rfl, hmap0] at h
          simp at h
        · exact h
      · intro hne
        exact h6 (Or.inl hne)

theorem walkKeyFail_eq_false_of_all (prims : WalletPrims) (m : List Nat) (th : Bool)
    (entries : List (Nat × (List Nat × List Nat)))
    (h : ∀ e ∈ entries, walkFails prims m e = false) :
    walkKeyFail prims m th entries = false := by
  cases th with
  | true =>
    cases entries with
    | nil => rfl
    | cons e rest =>
      simpa [walkKeyFail] using h e (List.mem_cons_self e rest)
  | false =>
    simpa [walkKeyFail, List.any_eq_false] using h

theorem Unlock_succeeds (prims : WalletPrims) (s : CCryptoKeyStore) (m : List Nat)
    (hc : s.fUseCrypto = true)
    (hpass : walkKeyPass prims m s.mapCryptedKeys = true)
    (hfail : walkKeyFail prims m s.fDecryptionThoroughlyChecked s.mapCryptedKeys = false) :
    Unlock prims s m = some (true,
      { s with vMasterKey := m, fDecryptionThoroughlyChecked := true }) := by
  rw [Unlock, SetCrypted_of_crypted s hc]
  simp only [unlockLoop_spec]
  simp [hpass, hfail]

theorem Unlock_fails_of_no_pass (prims : WalletPrims) (s : CCryptoKeyStore) (m : List Nat)
    (hc : s.fUseCrypto = true)
    (hpass : walkKeyPass prims m s.mapCryptedKeys = false) :
    Unlock prims s m = some (false, s) := by
  rw [Unlock, SetCrypted_of_crypted s hc]
  simp only [unlockLoop_spec]
  simp [hpass]

theorem DecryptKey_none_of_secret (prims : WalletPrims) (mk ct pub : List Nat)
    (h : DecryptSecret prims mk ct (prims.pubGetHash pub) = none) :
    DecryptKey prims mk ct pub = none := by
  rw [DecryptKey, h]

/-- C2 (amended): for every store holding at least one (well-formed)
plaintext key that is taken encrypted by `EncryptKeys` under a 32-byte
master key `M` — with the abstract primitives satisfying the AES and
key-derivation contracts, and with wrong-key decryption failing (the
ideal-cipher contract) — after a subsequent `Lock()`, `GetKey` fails on
every id, and a subsequent `Unlock(M2)` succeeds if and only if
`M2 = M`. -/
theorem claim_C2_amended (prims : WalletPrims) (s0 s1 : CCryptoKeyStore) (M : List Nat)
    (hE : ∀ k b, k.length = 32 → b.length = 16 → (prims.aesEncBlock k b).length = 16)
    (hD : ∀ k b, k.length = 32 → b.length = 16 →
      prims.aesDecBlock k (prims.aesEncBlock k b) = b)
    (hComp : ∀ d c, prims.pubIsCompressed (prims.derivePub d c) = c)
    (hH : ∀ p, 16 ≤ (prims.pubGetHash p).length)
    (hM32 : M.length = 32)
    (hkeys : ∀ e ∈ s0.mapKeys, (e : Nat × CKey).2.data.length = 32)
    (hne : s0.mapKeys ≠ [])
    (hWrong : ∀ (M2 x seed ct : List Nat), M2 ≠ M → x.length = 32 →
      EncryptSecret prims M x seed = some ct → DecryptSecret prims M2 ct seed = none)
    (henc : EncryptKeys prims s0 M = (true, s1)) :
    (∀ id : Nat, GetKey prims (Lock s1).2 id = none)
    ∧ (∀ M2 : List Nat,
        (∃ s2, Unlock prims (Lock s1).2 M2 = some (true, s2)) ↔ M2 = M) := by
  obtain ⟨hflag, hmk1, hth1, hmapk1, hgood, hnec⟩ :=
    EncryptKeys_true prims s0 s1 M hkeys henc
  have hLock : (Lock s1).2 = { s1 with vMasterKey := [] } := by
    rw [Lock_of_crypted s1 hflag]
  rw [hLock]
  have hLflag : ({ s1 with vMasterKey := [] } : CCryptoKeyStore).fUseCrypto = true := hflag
  constructor
  · intro id
    rw [GetKey, if_neg (by simp [hflag])]
    cases hlook : mapLookup id
        ({ s1 with vMasterKey := [] } : CCryptoKeyStore).mapCryptedKeys with
    | none => rfl
    | some e => exact DecryptKey_badkey prims _ e.2 e.1 (by simp)
  · intro M2
    constructor
    · rintro ⟨s2, hs2⟩
      by_contra hne2
      obtain ⟨e0, rest, hcons⟩ := List.exists_cons_of_ne_nil (hnec hne)
      obtain ⟨key, hk32, hpub, hct⟩ := hgood e0 (by rw [hcons]; exact List.mem_cons_self _ _)
      have hfails : walkFails prims M2 e0 = true := by
        rw [walkFails, hpub, DecryptKey_none_of_secret prims M2 e0.2.2 _
          (hWrong M2 key.data _ e0.2.2 hne2 hk32 hct)]
        rfl
      have hpass : walkKeyPass prims M2
          ({ s1 with vMasterKey := [] } : CCryptoKeyStore).mapCryptedKeys = false := by
        show walkKeyPass prims M2 s1.mapCryptedKeys = false
        rw [hcons, walkKeyPass, hfails]
        rfl
      rw [Unlock_fails_of_no_pass prims _ M2 hLflag hpass] at hs2
      simp at hs2
    · intro hM2eq
      rw [hM2eq]
      have hall : ∀ e ∈ ({ s1 with vMasterKey := [] } : CCryptoKeyStore).mapCryptedKeys,
          walkFails prims M e = false := by
        intro e he
        obtain ⟨key, hk32, hpub, hct⟩ := hgood e he
        rw [walkFails, hpub,
            DecryptKey_good prims M key e.2.2 hE hD hComp hH hM32 hk32 hct]
        rfl
      obtain ⟨e0, rest, hcons⟩ := List.exists_cons_of_ne_nil (hnec hne)
      have hpass : walkKeyPass prims M
          ({ s1 with vMasterKey := [] } : CCryptoKeyStore).mapCryptedKeys = true := by
        show walkKeyPass prims M s1.mapCryptedKeys = true
        rw [hcons, walkKeyPass,
            hall e0 (by show e0 ∈ s1.mapCryptedKeys; rw [hcons]; exact List.mem_cons_self _ _)]
        rfl
      exact ⟨_, Unlock_succeeds prims _ M hLflag hpass
        (walkKeyFail_eq_false_of_all prims M _ _ hall)⟩

/-- The 32-byte master key used in the C2 evaluations. -/
def MW2 : List Nat := List.replicate 32 5

theorem claim_C2_counterexample :
    EncryptKeys idPrims CCryptoKeyStore.initial MW2
      = (true, (EncryptKeys idPrims CCryptoKeyStore.initial MW2).2)
    ∧ Unlock idPrims (Lock (EncryptKeys idPrims CCryptoKeyStore.initial MW2).2).2 MW2
        = some (false, (Lock (EncryptKeys idPrims CCryptoKeyStore.initial MW2).2).2) := by
  decide

theorem encL_pos (a : Nat) (t : List Nat) : 0 < encL (a :: t) := by
  rw [encL]
  exact Nat.mul_pos (Nat.two_pow_pos a) (by omega)

theorem decLAux_encL : ∀ (fuel : Nat) (l : List Nat), encL l ≤ fuel →
    decLAux fuel (encL l) = l := by
  intro fuel
  induction fuel with
  | zero =>
    intro l h
    cases l with
    | nil => rfl
    | cons a t => exact absurd h (by have := encL_pos a t; omega)
  | succ fuel ih =>
    intro l h
    cases l with
    | nil => simp [decLAux, encL]
    | cons a t =>
      have hpos := encL_pos a t
      cases a with
      | zero =>
        have he : encL (0 :: t) = 2 * encL t + 1 := by
          rw [encL]; simp
        rw [he] at h ⊢
        simp only [decLAux]
        rw [if_neg (by omega), if_neg (by omega)]
        have hdiv : (2 * encL t + 1) / 2 = encL t := by omega
        rw [hdiv, ih t (by omega)]
      | succ a1 =>
        have hpos1 := encL_pos a1 t
        have he : encL ((a1 + 1) :: t) = 2 * encL (a1 :: t) := by
          rw [encL, encL, pow_succ]
          ring
        rw [he] at h ⊢
        simp only [decLAux]
        rw [if_neg (by omega), if_pos (by omega)]
        have hdiv : 2 * encL (a1 :: t) / 2 = encL (a1 :: t) := by omega
        rw [hdiv, ih (a1 :: t) (by omega)]

theorem decL_encL (l : List Nat) : decL (encL l) = l :=
  decLAux_encL (encL l) l le_rfl

theorem encL_inj (l1 l2 : List Nat) (h : encL l1 = encL l2) : l1 = l2 := by
  have h1 := decL_encL l1
  rw [← h1, h, decL_encL]

theorem encN_pos (a : Nat) (t : List Nat) : 0 < encN (a :: t) := by
  rw [encN]; omega

theorem decNAux_encN : ∀ (fuel : Nat) (l : List Nat), encN l ≤ fuel →
    decNAux fuel (encN l) = l := by
  intro fuel
  induction fuel with
  | zero =>
    intro l h
    cases l with
    | nil => rfl
    | cons a t => exact absurd h (by have := encN_pos a t; omega)
  | succ fuel ih =>
    intro l h
    cases l with
    | nil => simp [decNAux, encN]
    | cons a t =>
      rw [encN] at h ⊢
      simp only [decNAux]
      rw [if_neg (by omega)]
      simp only [Nat.add_sub_cancel, Nat.unpair_pair]
      have hle : encN t ≤ fuel := by
        have h1 := Nat.right_le_pair a (encN t)
        omega
      rw [ih t hle]

theorem decN_encN (l : List Nat) : decN (encN l) = l :=
  decNAux_encN (encN l) l le_rfl

theorem toy_hE : ∀ k b : List Nat, k.length = 32 → b.length = 16 →
    (toyPrims.aesEncBlock k b).length = 16 := by
  intro k b _ _
  rfl

theorem toy_hD : ∀ k b : List Nat, k.length = 32 → b.length = 16 →
    toyPrims.aesDecBlock k (toyPrims.aesEncBlock k b) = b := by
  intro k b _ _
  show (if (Nat.unpair ((Nat.pair (encL k) (encN b)
          :: List.replicate 15 0).headD 0)).1 = encL k
        then decN (Nat.unpair ((Nat.pair (encL k) (encN b)
          :: List.replicate 15 0).headD 0)).2
        else List.replicate 16 17) = b
  rw [show (Nat.pair (encL k) (encN b) :: List.replicate 15 0).headD 0
      = Nat.pair (encL k) (encN b) from rfl, Nat.unpair_pair]
  rw [if_pos rfl]
  exact decN_encN b

theorem toy_hComp : ∀ (d : List Nat) (c : Bool),
    toyPrims.pubIsCompressed (toyPrims.derivePub d c) = c := by
  intro d c
  show ((d ++ [if c then 1 else 0]).getLastD 0 == 1) = c
  rw [List.getLastD_concat]
  cases c <;> rfl

theorem toy_hH : ∀ p : List Nat, 16 ≤ (toyPrims.pubGetHash p).length := by
  intro p
  show 16 ≤ (List.replicate 32 0).length
  simp

theorem zip_xor_zero_seventeen : ∀ n : Nat,
    List.zipWith Nat.xor (List.replicate n 0) (List.replicate n 17)
      = List.replicate n 17 := by
  intro n
  induction n with
  | zero => rfl
  | succ n ih =>
    simp only [List.replicate_succ, List.zipWith_cons_cons, ih]
    exact List.cons_eq_cons.mpr ⟨Nat.zero_xor 17, rfl⟩

theorem getLast?_cons_replicate (w a n : Nat) :
    (w :: List.replicate (n + 1) a).getLast? = some a := by
  rw [List.replicate_succ',
      show w :: (List.replicate n a ++ [a]) = (w :: List.replicate n a) ++ [a] from rfl]
  exact List.getLast?_concat _

theorem EncryptSecret_inv (prims : WalletPrims) (mk x seed ct : List Nat)
    (h : EncryptSecret prims mk x seed = some ct) :
    mk.length = 32 ∧ (seed.take 16).length = 16
    ∧ ct = aesCBCEncrypt (prims.aesEncBlock mk) (seed.take 16) x := by
  rw [EncryptSecret] at h
  by_cases hk : mk.length ≠ 32 ∨ (seed.take 16).length ≠ 16
  · rw [SetKey_fail _ _ _ hk] at h
    simp at h
  · push_neg at hk
    rw [SetKey_success _ _ _ hk.1 hk.2] at h
    refine ⟨hk.1, hk.2, ?_⟩
    simp only [CCrypter.Encrypt] at h
    rw [if_neg (by simp)] at h
    split at h
    · simp at h
    · exact (Option.some.inj h).symm

theorem toy_dec_junk (M M2 : List Nat) (hne : M ≠ M2) (b : List Nat) :
    toyPrims.aesDecBlock M2 (toyPrims.aesEncBlock M b) = List.replicate 16 17 := by
  show (if (Nat.unpair ((Nat.pair (encL M) (encN b)
          :: List.replicate 15 0).headD 0)).1 = encL M2
        then decN (Nat.unpair ((Nat.pair (encL M) (encN b)
          :: List.replicate 15 0).headD 0)).2
        else List.replicate 16 17) = List.replicate 16 17
  rw [show (Nat.pair (encL M) (encN b) :: List.replicate 15 0).headD 0
      = Nat.pair (encL M) (encN b) from rfl, Nat.unpair_pair]
  exact if_neg (fun h => hne (encL_inj M M2 h))

theorem toy_xor_junk (c : Nat) (t : List Nat) :
    xorBytes (c :: t) (List.replicate 16 17)
      = Nat.xor c 17 :: List.zipWith Nat.xor t (List.replicate 15 17) := by
  rw [show (List.replicate 16 17 : List Nat) = 17 :: List.replicate 15 17 from rfl]
  rfl

theorem toy_dec3_none (M M2 iv : List Nat) (hne : M ≠ M2)
    (b1 b2 b3 : List Nat) :
    aesCBCDecrypt (toyPrims.aesDecBlock M2) iv
      ([toyPrims.aesEncBlock M b1, toyPrims.aesEncBlock M b2,
        toyPrims.aesEncBlock M b3].flatten) = none := by
  have hblocks : ∀ b ∈ [toyPrims.aesEncBlock M b1, toyPrims.aesEncBlock M b2,
      toyPrims.aesEncBlock M b3], b.length = 16 := by
    intro b hb
    simp only [List.mem_cons, List.not_mem_nil, or_false] at hb
    rcases hb with h | h | h <;> subst h <;> rfl
  have hlen : ([toyPrims.aesEncBlock M b1, toyPrims.aesEncBlock M b2,
      toyPrims.aesEncBlock M b3].flatten).length = 48 := by
    rw [flatten_length_of_blocks _ hblocks]
    rfl
  rw [aesCBCDecrypt, if_neg (by omega)]
  rw [chunk16_flatten_blocks _ hblocks]
  have hdec : cbcDecBlocks (toyPrims.aesDecBlock M2) iv
      [toyPrims.aesEncBlock M b1, toyPrims.aesEncBlock M b2,
       toyPrims.aesEncBlock M b3]
      = [xorBytes iv (toyPrims.aesDecBlock M2 (toyPrims.aesEncBlock M b1)),
         xorBytes (toyPrims.aesEncBlock M b1)
           (toyPrims.aesDecBlock M2 (toyPrims.aesEncBlock M b2)),
         xorBytes (toyPrims.aesEncBlock M b2)
           (toyPrims.aesDecBlock M2 (toyPrims.aesEncBlock M b3))] := rfl
  rw [hdec, toy_dec_junk M M2 hne b1, toy_dec_junk M M2 hne b2,
      toy_dec_junk M M2 hne b3]
  have hP3 : xorBytes (toyPrims.aesEncBlock M b2) (List.replicate 16 17)
      = Nat.xor (Nat.pair (encL M) (encN b2)) 17 ::
          List.zipWith Nat.xor (List.replicate 15 0) (List.replicate 15 17) :=
    toy_xor_junk _ _
  rw [hP3, zip_xor_zero_seventeen 15]
  simp only [List.flatten_cons, List.flatten_nil, List.append_nil]
  have hP3ne : (Nat.xor (Nat.pair (encL M) (encN b2)) 17 ::
      List.replicate 15 17 : List Nat) ≠ [] := by
    simp
  have hlast : ((xorBytes iv (List.replicate 16 17)) ++
      ((xorBytes (toyPrims.aesEncBlock M b1) (List.replicate 16 17)) ++
        (Nat.xor (Nat.pair (encL M) (encN b2)) 17 :: List.replicate 15 17))).getLast?
      = some 17 := by
    rw [List.getLast?_append_of_ne_nil _
        (fun hh => hP3ne (List.append_eq_nil.mp hh).2),
        List.getLast?_append_of_ne_nil _ hP3ne]
    exact getLast?_cons_replicate _ 17 14
  simp only [pkcs7unpad, hlast]
  rw [if_neg (fun hcond => absurd hcond.2.1 (by omega))]

theorem toy_wrong (M : List Nat) :
    ∀ (M2 x seed ct : List Nat), M2 ≠ M → x.length = 32 →
      EncryptSecret toyPrims M x seed = some ct →
      DecryptSecret toyPrims M2 ct seed = none := by
  intro M2 x seed ct hne hx henc
  obtain ⟨hM32, hiv, hcteq⟩ := EncryptSecret_inv toyPrims M x seed ct henc
  by_cases hM2 : M2.length = 32
  · rw [DecryptSecret, SetKey_success CCrypter.init M2 (seed.take 16) hM2 hiv]
    show CCrypter.Decrypt toyPrims
      { vchKey := M2, vchIV := seed.take 16, fKeySet := true } ct = none
    rw [CCrypter.Decrypt, if_neg (by simp)]
    have hpad : pkcs7pad x = x ++ List.replicate 16 16 := by
      rw [pkcs7pad, hx]
    have hB1len : (x.take 16).length = 16 := by
      rw [List.length_take, hx]
      rfl
    have hB2len : (x.drop 16).length = 16 := by
      rw [List.length_drop, hx]
    have hflat3 : ([x.take 16, x.drop 16, List.replicate 16 16] :
        List (List Nat)).flatten = pkcs7pad x := by
      rw [hpad]
      simp only [List.flatten_cons, List.flatten_nil, List.append_nil]
      rw [← List.append_assoc, List.take_append_drop]
    have hchunkpad : chunk16 (pkcs7pad x)
        = [x.take 16, x.drop 16, List.replicate 16 16] := by
      rw [← hflat3]
      apply chunk16_flatten_blocks
      intro b hb
      simp only [List.mem_cons, List.not_mem_nil, or_false] at hb
      rcases hb with h | h | h <;> subst h
      · exact hB1len
      · exact hB2len
      · simp
    rw [hcteq, aesCBCEncrypt, hchunkpad]
    have hcbc : cbcEncBlocks (toyPrims.aesEncBlock M) (seed.take 16)
        [x.take 16, x.drop 16, List.replicate 16 16]
        = [toyPrims.aesEncBlock M (xorBytes (seed.take 16) (x.take 16)),
           toyPrims.aesEncBlock M
             (xorBytes (toyPrims.aesEncBlock M (xorBytes (seed.take 16) (x.take 16)))
               (x.drop 16)),
           toyPrims.aesEncBlock M
             (xorBytes (toyPrims.aesEncBlock M
                 (xorBytes (toyPrims.aesEncBlock M (xorBytes (seed.take 16) (x.take 16)))
                   (x.drop 16)))
               (List.replicate 16 16))] := rfl
    rw [hcbc]
    exact toy_dec3_none M M2 (seed.take 16) (fun h => hne h.symm) _ _ _
  · exact DecryptSecret_badkey toyPrims M2 ct seed hM2

/-- A concrete private key for evaluating C2 under the toy primitives. -/
def keyC2 : CKey := { data := List.replicate 32 9, fCompressed := true }

/-- An uncrypted store holding the single plaintext key `keyC2`. -/
def sC2 : CCryptoKeyStore :=
  { CCryptoKeyStore.initial with
    mapKeys := [(toyPrims.pubGetID (toyPrims.derivePub keyC2.data keyC2.fCompressed),
                 keyC2)] }

/-- The store `sC2` after `EncryptKeys` under the master key `MW2`. -/
def sC2enc : CCryptoKeyStore := (EncryptKeys toyPrims sC2 MW2).2

theorem claim_C2_witness :
    GetKey toyPrims (Lock sC2enc).2 3 = none
    ∧ Option.map Prod.fst (Unlock toyPrims (Lock sC2enc).2 MW2) = some true := by
  have h := claim_C2_amended toyPrims sC2 sC2enc MW2 toy_hE toy_hD toy_hComp toy_hH
    (by decide) (by decide) (by decide)
    (fun M2 x seed ct hne hx henc => toy_wrong MW2 M2 x seed ct hne hx henc)
    (by decide)
  refine ⟨h.1 3, ?_⟩
  obtain ⟨s2, hs2⟩ := (h.2 MW2).mpr rfl
  rw [hs2]
  rfl

/-- Invariant I1 of the spec: an encrypted store holds no plaintext
keys. -/
def I1 (s : CCryptoKeyStore) : Prop := s.fUseCrypto = true → s.mapKeys = []

theorem I1_SetCrypted (s : CCryptoKeyStore) (h : I1 s) : I1 (SetCrypted s).2 := by
  rw [SetCrypted]
  split_ifs with h1 h2
  · exact h
  · exact h
  · intro _
    rw [not_ne_iff] at h2
    exact h2

theorem Lock_I1 (s : CCryptoKeyStore) (h : I1 s) : I1 (Lock s).2 := by
  rw [Lock]
  rcases hsc : SetCrypted s with ⟨b, s1⟩
  have hI : I1 s1 := by
    have := I1_SetCrypted s h
    rw [hsc] at this
    exact this
  cases b
  · exact hI
  · intro hf
    exact hI hf

theorem AddCryptedKey_I1 (prims : WalletPrims) (s : CCryptoKeyStore) (pub ct : List Nat)
    (h : I1 s) : I1 (AddCryptedKey prims s pub ct).2 := by
  rw [AddCryptedKey]
  rcases hsc : SetCrypted s with ⟨b, s1⟩
  have hI : I1 s1 := by
    have := I1_SetCrypted s h
    rw [hsc] at this
    exact this
  cases b
  · exact hI
  · intro hf
    exact hI hf

theorem AddCryptedPaperKey_I1 (s : CCryptoKeyStore) (v : List Nat)
    (h : I1 s) : I1 (AddCryptedPaperKey s v).2 := by
  rw [AddCryptedPaperKey]
  rcases hsc : SetCrypted s with ⟨b, s1⟩
  have hI : I1 s1 := by
    have := I1_SetCrypted s h
    rw [hsc] at this
    exact this
  cases b
  · exact hI
  · intro hf
    exact hI hf

theorem AddCryptedPinCode_I1 (s : CCryptoKeyStore) (v : List Nat)
    (h : I1 s) : I1 (AddCryptedPinCode s v).2 := by
  rw [AddCryptedPinCode]
  rcases hsc : SetCrypted s with ⟨b, s1⟩
  have hI : I1 s1 := by
    have := I1_SetCrypted s h
    rw [hsc] at this
    exact this
  cases b
  · exact hI
  · intro hf
    exact hI hf

theorem Unlock_I1 (prims : WalletPrims) (s : CCryptoKeyStore) (m : List Nat)
    (b : Bool) (s1 : CCryptoKeyStore) (hu : Unlock prims s m = some (b, s1))
    (h : I1 s) : I1 s1 := by
  rcases Unlock_result prims s m b s1 hu with h1 | h1 <;> rw [h1]
  · exact I1_SetCrypted s h
  · intro hf
    exact I1_SetCrypted s h hf

theorem AddKeyPubKey_I1 (prims : WalletPrims) (s : CCryptoKeyStore) (key : CKey)
    (pub : List Nat) (h : I1 s) : I1 (AddKeyPubKey prims s key pub).2 := by
  rw [AddKeyPubKey]
  split
  · rename_i hflag
    intro hf
    exact absurd (show s.fUseCrypto = true from hf) (by simp [hflag])
  · split
    · exact h
    · cases hse : EncryptSecret prims s.vMasterKey key.data (prims.pubGetHash pub) with
      | none => exact h
      | some ct =>
        simp only
        exact AddCryptedKey_I1 prims s pub ct h

theorem AddPaperKey_I1 (prims : WalletPrims) (s : CCryptoKeyStore) (p : List Nat)
    (h : I1 s) : I1 (AddPaperKey prims s p).2 := by
  rw [AddPaperKey]
  split
  · rename_i hflag
    intro hf
    exact absurd (show s.fUseCrypto = true from hf) (by simp [hflag])
  · split
    · exact h
    · cases hse : EncryptSecret prims s.vMasterKey p
          (DoubleHashOfString prims paperkeyLabel) with
      | none => exact h
      | some v =>
        simp only
        exact AddCryptedPaperKey_I1 s v h

theorem AddPinCode_I1 (prims : WalletPrims) (s : CCryptoKeyStore) (p : List Nat)
    (h : I1 s) : I1 (AddPinCode prims s p).2 := by
  rw [AddPinCode]
  split
  · rename_i hflag
    intro hf
    exact absurd (show s.fUseCrypto = true from hf) (by simp [hflag])
  · split
    · exact h
    · cases hse : EncryptSecret prims s.vMasterKey p
          (DoubleHashOfString prims pincodeLabel) with
      | none => exact h
      | some v =>
        simp only
        exact AddCryptedPinCode_I1 s v h

theorem DecryptPaperKey_I1 (prims : WalletPrims) (s : CCryptoKeyStore)
    (h : I1 s) : I1 (DecryptPaperKey prims s) := by
  rw [DecryptPaperKey]
  cases GetPaperKey prims s
  · exact h
  · intro hf
    exact h hf

theorem DecryptPinCode_I1 (prims : WalletPrims) (s : CCryptoKeyStore)
    (h : I1 s) : I1 (DecryptPinCode prims s) := by
  rw [DecryptPinCode]
  cases GetPinCode prims s
  · exact h
  · intro hf
    exact h hf

theorem EncryptPaperKey_I1 (prims : WalletPrims) (s : CCryptoKeyStore) (m : List Nat)
    (h : I1 s) : I1 (EncryptPaperKey prims s m).2 := by
  rw [EncryptPaperKey]
  split
  · exact h
  · cases GetPaperKey prims s with
    | none => exact h
    | some pk =>
      simp only
      cases EncryptSecret prims m pk (DoubleHashOfString prims paperkeyLabel)
      · exact h
      · intro hf
        exact h hf

theorem EncryptPinCode_I1 (prims : WalletPrims) (s : CCryptoKeyStore) (m : List Nat)
    (h : I1 s) : I1 (EncryptPinCode prims s m).2 := by
  rw [EncryptPinCode]
  split
  · exact h
  · cases GetPinCode prims s with
    | none => exact h
    | some pc =>
      simp only
      cases EncryptSecret prims m pc (DoubleHashOfString prims pincodeLabel)
      · exact h
      · intro hf
        exact h hf

theorem encryptKeysLoop_succeeds (prims : WalletPrims) (m : List Nat)
    (hE : ∀ k b, k.length = 32 → b.length = 16 → (prims.aesEncBlock k b).length = 16)
    (hH : ∀ p, 16 ≤ (prims.pubGetHash p).length) (hm : m.length = 32) :
    ∀ (l : List (Nat × CKey)) (s : CCryptoKeyStore), s.fUseCrypto = true →
      ∃ s1, encryptKeysLoop prims m l s = (true, s1) := by
  intro l
  induction l with
  | nil => intro s _; exact ⟨s, rfl⟩
  | cons e rest ih =>
    obtain ⟨id0, key⟩ := e
    intro s hc
    have henc := EncryptSecret_eq prims m key.data
      (prims.pubGetHash (prims.derivePub key.data key.fCompressed)) hE hm (hH _)
    obtain ⟨s1, hrest⟩ := ih
      { s with
        mapCryptedKeys := mapInsert
          (prims.pubGetID (prims.derivePub key.data key.fCompressed))
          (prims.derivePub key.data key.fCompressed,
            aesCBCEncrypt (prims.aesEncBlock m)
              ((prims.pubGetHash (prims.derivePub key.data key.fCompressed)).take 16)
              key.data)
          s.mapCryptedKeys } (by exact hc)
    refine ⟨s1, ?_⟩
    rw [encryptKeysLoop]
    simp only [henc, AddCryptedKey_of_crypted prims s _ _ hc]
    exact hrest

theorem EncryptKeys_I1 (prims : WalletPrims) (s : CCryptoKeyStore) (m : List Nat)
    (hE : ∀ k b, k.length = 32 → b.length = 16 → (prims.aesEncBlock k b).length = 16)
    (hH : ∀ p, 16 ≤ (prims.pubGetHash p).length) (hm : m.length = 32)
    (h : I1 s) : I1 (EncryptKeys prims s m).2 := by
  rw [EncryptKeys]
  split
  · exact h
  · obtain ⟨s1, hloop⟩ := encryptKeysLoop_succeeds prims m hE hH hm s.mapKeys
      { s with fUseCrypto := true } rfl
    rw [hloop]
    intro _
    rfl

/-- C6 (amended): invariant I1 (`fUseCrypto = true` implies `mapKeys`
empty) holds in every state reachable by the store's public operations,
provided every `EncryptKeys` call receives a well-formed 32-byte master
key (as the wallet layer always does), under the block-cipher and hash
length contracts. -/
theorem claim_C6_amended (prims : WalletPrims) (s : CCryptoKeyStore)
    (hE : ∀ k b, k.length = 32 → b.length = 16 → (prims.aesEncBlock k b).length = 16)
    (hH : ∀ p, 16 ≤ (prims.pubGetHash p).length)
    (h : ReachSafe prims s) : s.fUseCrypto = true → s.mapKeys = [] := by
  induction h with
  | init => intro _; rfl
  | lock s1 _ ih => exact Lock_I1 s1 ih
  | unlock s1 m b s2 _ hu ih => exact Unlock_I1 prims s1 m b s2 hu ih
  | addKeyPubKey s1 key pub _ ih => exact AddKeyPubKey_I1 prims s1 key pub ih
  | addCryptedKey s1 pub ct _ ih => exact AddCryptedKey_I1 prims s1 pub ct ih
  | encryptKeys s1 m hm _ ih => exact EncryptKeys_I1 prims s1 m hE hH hm ih
  | addPaperKey s1 p _ ih => exact AddPaperKey_I1 prims s1 p ih
  | addCryptedPaperKey s1 v _ ih => exact AddCryptedPaperKey_I1 s1 v ih
  | decryptPaperKey s1 _ ih => exact DecryptPaperKey_I1 prims s1 ih
  | encryptPaperKey s1 m _ ih => exact EncryptPaperKey_I1 prims s1 m ih
  | addPinCode s1 p _ ih => exact AddPinCode_I1 prims s1 p ih
  | addCryptedPinCode s1 v _ ih => exact AddCryptedPinCode_I1 s1 v ih
  | decryptPinCode s1 _ ih => exact DecryptPinCode_I1 prims s1 ih
  | encryptPinCode s1 m _ ih => exact EncryptPinCode_I1 prims s1 m ih

/-- A concrete private key for the C6 counterexample. -/
def cexKey : CKey := { data := List.replicate 32 3, fCompressed := true }

/-- The public key derived from `cexKey` under `idPrims`. -/
def cexPub : List Nat := idPrims.derivePub cexKey.data cexKey.fCompressed

/-- The store after adding `cexKey` as a plaintext key. -/
def cexS1 : CCryptoKeyStore :=
  (AddKeyPubKey idPrims CCryptoKeyStore.initial cexKey cexPub).2

/-- The store after a failing `EncryptKeys` call with an ill-formed
(empty) master key: the flag is set but the plaintext keys remain. -/
def cexS2 : CCryptoKeyStore := (EncryptKeys idPrims cexS1 []).2

theorem claim_C6_counterexample :
    Reach idPrims cexS2 ∧ cexS2.fUseCrypto = true ∧ cexS2.mapKeys ≠ [] := by
  refine ⟨?_, by decide, by decide⟩
  exact Reach.step _ _
    (Reach.step _ _ Reach.init (Step.addKeyPubKey CCryptoKeyStore.initial cexKey cexPub))
    (Step.encryptKeys cexS1 [])

theorem claim_C6_witness : (Lock CCryptoKeyStore.initial).2.mapKeys = [] :=
  claim_C6_amended idPrims (Lock CCryptoKeyStore.initial).2 idPrims_hE idPrims_hH
    (ReachSafe.lock CCryptoKeyStore.initial ReachSafe.init) (by decide)
